import Mathlib

/-!
Verification of the identity-preserving AST merge of `mypy/server/astmerge.py`.

The source operates on a Python object graph: every `SymbolNode` is an object
with an immutable Python class (its concrete kind tag), and a mutable
`__dict__` holding all content fields (qualified name, body, and — for
`TypeInfo` nodes — the nested member symbol table `names`).  The transplant
`selfify` works purely at the `__dict__` level: it rewrites the contents of
the dict cell addressed by one object and redirects the other object's
`__dict__` pointer to that very cell, so that both identities alias one
storage cell afterwards.

The shallow embedding below follows the arena model: node identities are
`NodeId`s, dict cells are `DictId`s, and a `Heap` maps each node to its dict
cell (`dictRef`), each cell to its stored content (`dictVal`), and each node
to its immutable Python type (`typeOf`).  Qualified names are embedded as
their lists of dotted components.  Symbol tables are association lists from
bare name to symbol-table entry; the replacement map is an association list
with Python-dict insertion semantics (`dinsert` either overwrites the value
at an existing key in place or appends a fresh key at the end).

The recursion of `replacement_map_from_symbol_table` in the source descends
through the nested object structure (`node.node.names`); since the embedding
reaches those tables through the heap, the descent is bounded by an explicit
`fuel` parameter.  The theorem for the termination claim shows that any fuel
at least the class-nesting depth of the old table yields the same map, so
the bound is immaterial on the inputs the source runs on.
-/

namespace Astmerge

/-- A qualified (dotted) name, embedded as its list of components. -/
abbrev QName := List String

/-- Object identity of a `SymbolNode` (a stable handle into the arena). -/
abbrev NodeId := Nat

/-- Identity of a `__dict__` storage cell. -/
abbrev DictId := Nat

/-- The concrete Python class of a `SymbolNode` — the tag compared by
`type(new_node.node) == type(node.node)` in the source. -/
inductive NodeType where
  | MypyFile
  | TypeInfo
  | FuncDef
  | Var
deriving DecidableEq

/-- The entry-kind tag of a symbol-table entry; `MDEF` marks a member
declared inside a `TypeInfo`'s own nested table. -/
inductive SymbolKind where
  | MDEF
  | GDEF
  | LDEF
deriving DecidableEq

/-- A symbol-table entry: `SymbolTableNode` in the source, pairing an
entry-kind tag with an optional reference to a `SymbolNode`. -/
structure SymbolTableNode where
  kind : SymbolKind
  node : Option NodeId
deriving DecidableEq

/-- A symbol table: a scope-local association from bare name to entry. -/
abbrev SymbolTable := List (String × SymbolTableNode)

/-- The mutable contents of a node's `__dict__`: its qualified name, its
body payload (standing for all remaining content fields), and — meaningful
for `TypeInfo` nodes — the nested member table `names`. -/
structure NodeDict where
  fullname : QName
  body : String
  names : SymbolTable
deriving DecidableEq

/-- The object arena: each node has an immutable Python type, a pointer to
its `__dict__` cell, and each cell stores a `NodeDict`. -/
@[ext] structure Heap where
  typeOf : NodeId → NodeType
  dictRef : NodeId → DictId
  dictVal : DictId → NodeDict

/-- The content currently observed through a node identity: the value stored
in the dict cell its `__dict__` points at. -/
def Heap.content (h : Heap) (n : NodeId) : NodeDict :=
  h.dictVal (h.dictRef n)

/-- `node.fullname()` in the source: read from the node's current content. -/
def Heap.fullname (h : Heap) (n : NodeId) : QName :=
  (h.content n).fullname

/-- Modelled from the spec: the qualified-name prefix utility ` get_prefix`
(defined in `mypy.util`, outside this repository).  Given a dotted qualified
name it returns the owning scope's name, i.e. the name with its final dotted
component removed; a name with a single component is returned unchanged. -/
def get_prefix (name : QName) : QName :=
  if name.length ≤ 1 then name else name.dropLast

/-- First-match lookup of a bare name in a symbol table (`new[name]`). -/
def lookupST (t : SymbolTable) (name : String) : Option SymbolTableNode :=
  (t.find? (fun p => p.1 = name)).map (fun p => p.2)

/-- The replacement map: an association list from new-node identity to
old-node identity, with Python-dict semantics. -/
abbrev RMap := List (NodeId × NodeId)

/-- Python-dict assignment `m[k] = v`: overwrite the value at an existing
key in place, otherwise append the fresh key at the end. -/
def dinsert (m : RMap) (k v : NodeId) : RMap :=
  if m.any (fun p => p.1 = k) then
    m.map (fun p => if p.1 = k then (k, v) else p)
  else m ++ [(k, v)]

/-- Python-dict `m.update(other)`: assign every pair of `other` in order. -/
def dupdate (m other : RMap) : RMap :=
  other.foldl (fun acc p => dinsert acc p.1 p.2) m

/-- The inclusion guard of the builder, for one old entry:
`node.kind == MDEF or node.node and get_prefix(node.node.fullname()) == prefix`.
The `node.node and …` short-circuit of the source (which protects the
`fullname()` call from an empty node reference) is embedded by the match on
the optional node. -/
def inclusionGuard (h : Heap) (pfx : QName) (e : SymbolTableNode) : Bool :=
  decide (e.kind = SymbolKind.MDEF) ||
    (match e.node with
     | some v => decide ( get_prefix (h.fullname v) = pfx)
     | none => false)

/-- One iteration of the builder's loop body, processing the old entry `p`
against the accumulated `replacements`; `recur` is the recursive call into
nested member tables (at one less fuel).  The source's correspondence test
`type(new_node.node) == type(node.node) and new_node.node and node.node and
new_node.node.fullname() == node.node.fullname() and new_node.kind == node.kind`
is embedded by first requiring both node references present (when exactly one
is present the Python type comparison fails, and when both are absent the
truthiness tests fail, so no entry is produced either way) and then comparing
type tags, qualified names and entry kinds. -/
def builderEntry (h : Heap) (recur : SymbolTable → SymbolTable → RMap)
    (new : SymbolTable) (pfx : QName) (replacements : RMap)
    (p : String × SymbolTableNode) : RMap :=
  match lookupST new p.1 with
  | none => replacements
  | some new_node =>
    if inclusionGuard h pfx p.2 then
      match new_node.node, p.2.node with
      | some newId, some oldId =>
        if h.typeOf newId = h.typeOf oldId ∧ h.fullname newId = h.fullname oldId ∧
            new_node.kind = p.2.kind then
          if h.typeOf oldId = NodeType.TypeInfo ∧ h.typeOf newId = NodeType.TypeInfo then
            dupdate (dinsert replacements newId oldId)
              (recur (h.content oldId).names (h.content newId).names)
          else dinsert replacements newId oldId
        else replacements
      | _, _ => replacements
    else replacements

/-- `replacement_map_from_symbol_table(old, new, prefix)`: create a
new-to-old identity map by comparing two symbol-table revisions, recursing
into nested `TypeInfo` member tables with the unchanged module prefix.  The
explicit `fuel` bounds the descent through the heap (see the module
docstring); at fuel 0 the recursive branch contributes nothing. -/
def replacement_map_from_symbol_table (h : Heap) :
    Nat → SymbolTable → SymbolTable → QName → RMap
  | 0, _, _, _ => []
  | fuel+1, old, new, pfx =>
    old.foldl
      (builderEntry h
        (fun a b => replacement_map_from_symbol_table h fuel a b pfx) new pfx)
      []

/-- `selfify(new, old)`: if the two objects already share one dict cell, do
nothing; otherwise overwrite the contents of `new`'s cell with `old`'s
current content (`new.__dict__.clear(); new.__dict__.update(old.__dict__)`)
and redirect `old`'s `__dict__` pointer to `new`'s cell
(`old.__dict__ = new.__dict__`). -/
def selfify (h : Heap) (new old : NodeId) : Heap :=
  if h.dictRef new = h.dictRef old then h
  else
    { h with
      dictVal := fun d => if d = h.dictRef new then h.content old else h.dictVal d
      dictRef := fun n => if n = old then h.dictRef new else h.dictRef n }

/-- The executor loop of `merge_asts`: `for src, dst in map.items():
selfify(dst, src)` — every pair is `(src, dst) = (newNode, oldNode)`. -/
def runPairs (h : Heap) (pairs : RMap) : Heap :=
  pairs.foldl (fun hh p => selfify hh p.2 p.1) h

/-- The full replacement map assembled by `merge_asts`: the builder's map
over the two tables at the old module's own qualified name, extended with
the explicit module pair `new → old`. -/
def merge_replacement_map (h : Heap) (old : NodeId) (old_symbols : SymbolTable)
    (new : NodeId) (new_symbols : SymbolTable) (fuel : Nat) : RMap :=
  dinsert
    (replacement_map_from_symbol_table h fuel old_symbols new_symbols (h.fullname old))
    new old

/-- The claim that merges commute, for a given pair list: running the
transplant loop over any reordering of the pairs produces the same heap. -/
def TransplantsCommute (h : Heap) (pairs : RMap) : Prop :=
  ∀ pairs' : RMap, pairs.Perm pairs' → runPairs h pairs = runPairs h pairs'

/-- `merge_asts(old, old_symbols, new, new_symbols)`.  The leading
`assert new.fullname() == old.fullname()` is embedded as the fallible
branch: on mismatch the call signals the fatal error (`none`) before any
mutation; otherwise the full replacement map is built against the unmutated
heap and every pair is transplanted. -/
def merge_asts (h : Heap) (old : NodeId) (old_symbols : SymbolTable)
    (new : NodeId) (new_symbols : SymbolTable) (fuel : Nat) : Option Heap :=
  if h.fullname new = h.fullname old then
    some (runPairs h (merge_replacement_map h old old_symbols new new_symbols fuel))
  else
    none

/-- The exact conditions under which the builder's loop body, processing the
old entry `p`, records the pair `(k, v)`: the name is bound in the new table,
the inclusion guard passes, both node references are present, and type tag,
qualified name and entry kind coincide — the correspondence test of the
source. -/
def EntryMatch (h : Heap) (new : SymbolTable) (pfx : QName)
    (p : String × SymbolTableNode) (k v : NodeId) : Prop :=
  ∃ e', lookupST new p.1 = some e' ∧ e'.node = some k ∧ p.2.node = some v ∧
    inclusionGuard h pfx p.2 = true ∧
    h.typeOf k = h.typeOf v ∧ h.fullname k = h.fullname v ∧ e'.kind = p.2.kind

/-- The top-level correspondence judgment of the builder for a bare `name`,
relating the old table's entry for that name to the new table's: the name is
bound in both tables, the inclusion guard passes for the old entry (entry
kind is the class-member kind, or the old node's owning prefix equals the
module prefix), both referenced nodes are present, and the concrete type
tags, the qualified names and the entry-kind tags coincide. -/
def MatchedName (h : Heap) (old new : SymbolTable) (pfx : QName)
    (name : String) (k v : NodeId) : Prop :=
  ∃ e, lookupST old name = some e ∧ EntryMatch h new pfx (name, e) k v

/-- The separation conditions under which the transplant loop's behaviour
has a simple closed form: the new-side identities of the pairs are pairwise
distinct, the old-side identities are pairwise distinct, and an identity
occurs on both sides only in a degenerate self pair. -/
def PairsSep (pairs : RMap) : Prop :=
  (pairs.map Prod.fst).Nodup ∧ (pairs.map Prod.snd).Nodup ∧
    ∀ p ∈ pairs, ∀ q ∈ pairs, p.1 = q.2 → p.1 = p.2 ∧ q.1 = q.2

/-- The pairs of a replacement map whose two identities differ (on a self
pair `selfify` is a guaranteed no-op). -/
def properPairs (pairs : RMap) : RMap :=
  pairs.filter (fun p => decide (p.1 ≠ p.2))

/-- Closed form of running the transplant loop over separated pairs in a
heap with injective dict references: every new-side identity of a proper
pair is redirected to its old partner's cell, and every such old cell
receives the new node's original content. -/
def applyPairs (h : Heap) (pairs : RMap) : Heap where
  typeOf := h.typeOf
  dictRef := fun x =>
    match (properPairs pairs).find? (fun p => decide (p.1 = x)) with
    | some p => h.dictRef p.2
    | none => h.dictRef x
  dictVal := fun d =>
    match (properPairs pairs).find? (fun p => decide (h.dictRef p.2 = d)) with
    | some p => h.content p.1
    | none => h.dictVal d

/-- Nesting depth of class-like definitions: `ClassDepthLE h n t` says every
chain of nested `TypeInfo` member tables starting from an entry of `t` has
at most `n` further levels below the entries of `t`. -/
def ClassDepthLE (h : Heap) : Nat → SymbolTable → Prop
  | 0, t => ∀ p ∈ t, ∀ v, p.2.node = some v → h.typeOf v ≠ NodeType.TypeInfo
  | n+1, t => ∀ p ∈ t, ∀ v, p.2.node = some v → h.typeOf v = NodeType.TypeInfo →
      ClassDepthLE h n (h.content v).names


/-- Concrete witness arena: two module nodes (0 old, 1 new) and two function
nodes (2 old, 3 new) for the same qualified name, every object owning its
own dict cell. -/
def wHeap : Heap where
  typeOf := fun n => if n ≤ 1 then NodeType.MypyFile else NodeType.FuncDef
  dictRef := fun n => n
  dictVal := fun d =>
    if d = 0 then ⟨["m"], "module body old", []⟩
    else if d = 1 then ⟨["m"], "module body new", []⟩
    else if d = 2 then ⟨["m", "f"], "return 1", []⟩
    else if d = 3 then ⟨["m", "f"], "return 2", []⟩
    else ⟨[], "", []⟩

/-- Old module-level symbol table of the witness arena. -/
def wOld : SymbolTable := [("f", ⟨SymbolKind.GDEF, some 2⟩)]

/-- New module-level symbol table of the witness arena. -/
def wNew : SymbolTable := [("f", ⟨SymbolKind.GDEF, some 3⟩)]

/-- Witness arena with a class: module nodes 0/1, `TypeInfo` nodes 2/3 for
the class `m.C`, and method nodes 4/5 for the member `m.C.a`. -/
def w3Heap : Heap where
  typeOf := fun n =>
    if n ≤ 1 then NodeType.MypyFile else if n ≤ 3 then NodeType.TypeInfo else NodeType.FuncDef
  dictRef := fun n => n
  dictVal := fun d =>
    if d = 0 then ⟨["m"], "", []⟩
    else if d = 1 then ⟨["m"], "", []⟩
    else if d = 2 then ⟨["m", "C"], "", [("a", ⟨SymbolKind.MDEF, some 4⟩)]⟩
    else if d = 3 then ⟨["m", "C"], "", [("a", ⟨SymbolKind.MDEF, some 5⟩)]⟩
    else if d = 4 then ⟨["m", "C", "a"], "pass", []⟩
    else if d = 5 then ⟨["m", "C", "a"], "return 0", []⟩
    else ⟨[], "", []⟩

/-- Old module-level table of the class witness arena. -/
def w3Old : SymbolTable := [("C", ⟨SymbolKind.GDEF, some 2⟩)]

/-- New module-level table of the class witness arena. -/
def w3New : SymbolTable := [("C", ⟨SymbolKind.GDEF, some 3⟩)]

/-- Witness arena with a kind change: the name `m.f` refers to a `FuncDef`
node (2) in the old revision and to a `TypeInfo` node (3) in the new one. -/
def w4Heap : Heap where
  typeOf := fun n =>
    if n ≤ 1 then NodeType.MypyFile else if n = 2 then NodeType.FuncDef else NodeType.TypeInfo
  dictRef := fun n => n
  dictVal := fun d =>
    if d = 0 then ⟨["m"], "module body old", []⟩
    else if d = 1 then ⟨["m"], "module body new", []⟩
    else if d = 2 then ⟨["m", "f"], "old body", []⟩
    else if d = 3 then ⟨["m", "f"], "new body", []⟩
    else ⟨[], "", []⟩

/-- Old module-level table of the kind-change witness arena. -/
def w4Old : SymbolTable := [("f", ⟨SymbolKind.GDEF, some 2⟩)]

/-- New module-level table of the kind-change witness arena. -/
def w4New : SymbolTable := [("f", ⟨SymbolKind.GDEF, some 3⟩)]

/-- Counterexample arena for commutation: the old table binds two names to
one shared old node 2, while the new table binds them to two distinct new
nodes 3 and 4 with the same qualified name but different bodies. -/
def c8Heap : Heap where
  typeOf := fun n => if n ≤ 1 then NodeType.MypyFile else NodeType.FuncDef
  dictRef := fun n => n
  dictVal := fun d =>
    if d = 0 then ⟨["m"], "", []⟩
    else if d = 1 then ⟨["m"], "", []⟩
    else if d = 2 then ⟨["m", "f"], "old", []⟩
    else if d = 3 then ⟨["m", "f"], "B3", []⟩
    else if d = 4 then ⟨["m", "f"], "B4", []⟩
    else ⟨[], "", []⟩

/-- Old table of the commutation counterexample: both names share node 2. -/
def c8Old : SymbolTable :=
  [("a", ⟨SymbolKind.GDEF, some 2⟩), ("b", ⟨SymbolKind.GDEF, some 2⟩)]

/-- New table of the commutation counterexample. -/
def c8New : SymbolTable :=
  [("a", ⟨SymbolKind.GDEF, some 3⟩), ("b", ⟨SymbolKind.GDEF, some 4⟩)]


/-- Entry-wise relabelling of a symbol-table entry along an identity map:
keeps the entry kind, renames the optional node reference. -/
def relabelEntry (σ : NodeId → NodeId) (e : SymbolTableNode) : SymbolTableNode :=
  SymbolTableNode.mk e.kind (e.node.map σ)

/-- An unchanged re-analysis of a module as a relation between the old and
new tables: `σ` relabels every old identity to its fresh new counterpart,
the new table at each level is exactly the `σ`-relabelling of the old one,
each level binds each name once, and every referenced new node agrees with
its old counterpart on the concrete type tag, the qualified name and the
body, with the member tables of class-like nodes related recursively.  The
bound counts table-nesting levels, as in the builder. -/
def SnapshotCopy (h : Heap) (σ : NodeId → NodeId) : Nat → SymbolTable → SymbolTable → Prop
  | 0, _, _ => False
  | fuel+1, oldT, newT =>
      (oldT.map Prod.fst).Nodup ∧
      newT = oldT.map (fun p => (p.1, relabelEntry σ p.2)) ∧
      ∀ p ∈ oldT, ∀ v, p.2.node = some v →
        h.typeOf (σ v) = h.typeOf v ∧
        (h.content (σ v)).fullname = (h.content v).fullname ∧
        (h.content (σ v)).body = (h.content v).body ∧
        (h.typeOf v = NodeType.TypeInfo →
          SnapshotCopy h σ fuel (h.content v).names (h.content (σ v)).names)

/-- Counterexample arena for the no-op update claim: the module `m` binds
the imported name `g`, whose node lives in module `other`; the new snapshot
is structurally identical (same name, entry kind, node kind, qualified
name, body), yet the inclusion guard excludes the name. -/
def c6Heap : Heap where
  typeOf := fun n => if n ≤ 1 then NodeType.MypyFile else NodeType.FuncDef
  dictRef := fun n => n
  dictVal := fun d =>
    if d = 0 then ⟨["m"], "modbody", []⟩
    else if d = 1 then ⟨["m"], "modbody", []⟩
    else if d = 2 then ⟨["other", "g"], "gbody", []⟩
    else if d = 3 then ⟨["other", "g"], "gbody", []⟩
    else ⟨[], "", []⟩

/-- Old table of the no-op counterexample: one imported name. -/
def c6Old : SymbolTable := [("g", ⟨SymbolKind.GDEF, some 2⟩)]

/-- New table of the no-op counterexample, structurally identical. -/
def c6New : SymbolTable := [("g", ⟨SymbolKind.GDEF, some 3⟩)]

/-- No-op witness arena: like the basic witness arena but the new revision
of `m.f` (node 3) has the same body as the old one (node 2), and the two
module nodes share their body, modelling an unchanged re-analysis. -/
def w6Heap : Heap where
  typeOf := fun n => if n ≤ 1 then NodeType.MypyFile else NodeType.FuncDef
  dictRef := fun n => n
  dictVal := fun d =>
    if d = 0 then ⟨["m"], "modbody", []⟩
    else if d = 1 then ⟨["m"], "modbody", []⟩
    else if d = 2 then ⟨["m", "f"], "return 1", []⟩
    else if d = 3 then ⟨["m", "f"], "return 1", []⟩
    else ⟨[], "", []⟩


/-- All node identities reachable from a symbol table through at most the
given number of nesting levels: the referenced nodes of its entries, and
recursively the reachable identities of class-like nodes' member tables. -/
def reachIds (h : Heap) : Nat → SymbolTable → List NodeId
  | 0, _ => []
  | fuel+1, t => t.foldr (fun p acc =>
      match p.2.node with
      | some v =>
        v :: (if h.typeOf v = NodeType.TypeInfo
              then reachIds h fuel (h.content v).names else []) ++ acc
      | none => acc) []

/-- Every table reachable through at most the given number of nesting
levels binds each bare name at most once. -/
def NodupKeysRec (h : Heap) : Nat → SymbolTable → Prop
  | 0, _ => True
  | fuel+1, t => (t.map Prod.fst).Nodup ∧
      ∀ p ∈ t, ∀ v, p.2.node = some v → h.typeOf v = NodeType.TypeInfo →
        NodupKeysRec h fuel (h.content v).names

/-! ### Association-list lemmas for the replacement map -/

theorem any_key_iff (m : RMap) (k : NodeId) :
    (m.any (fun p => p.1 = k)) = true ↔ k ∈ m.map Prod.fst := by
  rw [List.any_eq_true]
  constructor
  · rintro ⟨p, hp, he⟩
    exact (of_decide_eq_true he) ▸ List.mem_map_of_mem Prod.fst hp
  · intro hm
    obtain ⟨p, hp, he⟩ := List.mem_map.1 hm
    exact ⟨p, hp, decide_eq_true he⟩

theorem keys_dinsert (m : RMap) (k v : NodeId) :
    (dinsert m k v).map Prod.fst =
      if k ∈ m.map Prod.fst then m.map Prod.fst else m.map Prod.fst ++ [k] := by
  unfold dinsert
  by_cases hk : k ∈ m.map Prod.fst
  · rw [if_pos ((any_key_iff m k).2 hk), if_pos hk, List.map_map]
    apply List.map_congr_left
    intro p _
    by_cases hpk : p.1 = k
    · simp [hpk]
    · simp [hpk]
  · rw [if_neg (fun hc => hk ((any_key_iff m k).1 hc)), if_neg hk]
    simp

theorem mem_keys_dinsert_self (m : RMap) (k v : NodeId) :
    k ∈ (dinsert m k v).map Prod.fst := by
  rw [keys_dinsert]
  by_cases hk : k ∈ m.map Prod.fst <;> simp [hk]

theorem mem_keys_dinsert_of_mem {m : RMap} {a : NodeId} (k v : NodeId)
    (h : a ∈ m.map Prod.fst) : a ∈ (dinsert m k v).map Prod.fst := by
  rw [keys_dinsert]
  by_cases hk : k ∈ m.map Prod.fst <;> simp [hk, h]

theorem nodup_keys_dinsert {m : RMap} (h : (m.map Prod.fst).Nodup) (k v : NodeId) :
    ((dinsert m k v).map Prod.fst).Nodup := by
  rw [keys_dinsert]
  by_cases hk : k ∈ m.map Prod.fst
  · simpa [hk]
  · simp only [hk, if_false]
    rw [List.nodup_append]
    refine ⟨h, List.nodup_singleton k, ?_⟩
    intro a ha hb
    rw [List.mem_singleton] at hb
    exact hk (hb ▸ ha)

theorem mem_dinsert_self (m : RMap) (k v : NodeId) : (k, v) ∈ dinsert m k v := by
  unfold dinsert
  by_cases hk : (m.any (fun p => p.1 = k)) = true
  · rw [if_pos hk]
    obtain ⟨p, hp, he⟩ := List.any_eq_true.1 hk
    have hpk : p.1 = k := of_decide_eq_true he
    exact List.mem_map.2 ⟨p, hp, by rw [if_pos hpk]⟩
  · rw [if_neg hk]
    simp

theorem mem_dinsert_of_mem_ne {m : RMap} {a b k v : NodeId}
    (h1 : (a, b) ∈ m) (h2 : a ≠ k) : (a, b) ∈ dinsert m k v := by
  unfold dinsert
  by_cases hk : (m.any (fun p => p.1 = k)) = true
  · rw [if_pos hk]
    exact List.mem_map.2 ⟨(a, b), h1, by rw [if_neg h2]⟩
  · rw [if_neg hk]
    exact List.mem_append_left _ h1

theorem mem_dinsert_elim {m : RMap} {a b k v : NodeId}
    (h : (a, b) ∈ dinsert m k v) : (a, b) = (k, v) ∨ ((a, b) ∈ m ∧ a ≠ k) := by
  unfold dinsert at h
  by_cases hk : (m.any (fun p => p.1 = k)) = true
  · rw [if_pos hk] at h
    obtain ⟨p, hp, he⟩ := List.mem_map.1 h
    by_cases hpk : p.1 = k
    · rw [if_pos hpk] at he
      exact Or.inl he.symm
    · rw [if_neg hpk] at he
      subst he
      exact Or.inr ⟨hp, fun hc => hpk hc⟩
  · rw [if_neg hk] at h
    rcases List.mem_append.1 h with h' | h'
    · refine Or.inr ⟨h', fun hak => hk ?_⟩
      refine (any_key_iff m k).2 ?_
      have := List.mem_map_of_mem Prod.fst h'
      simpa [hak] using this
    · left
      simpa using h'

theorem key_unique {m : RMap} (h : (m.map Prod.fst).Nodup) {k v₁ v₂ : NodeId}
    (h1 : (k, v₁) ∈ m) (h2 : (k, v₂) ∈ m) : v₁ = v₂ := by
  induction m with
  | nil => cases h1
  | cons p m ih =>
    obtain ⟨p1, p2⟩ := p
    rw [List.map_cons, List.nodup_cons] at h
    rcases List.mem_cons.1 h1 with e1 | e1 <;> rcases List.mem_cons.1 h2 with e2 | e2
    · exact congrArg Prod.snd (e1.trans e2.symm)
    · injection e1 with ek _
      refine absurd ?_ h.1
      have := List.mem_map_of_mem Prod.fst e2
      simpa [ek] using this
    · injection e2 with ek _
      refine absurd ?_ h.1
      have := List.mem_map_of_mem Prod.fst e1
      simpa [ek] using this
    · exact ih h.2 e1 e2

theorem snd_unique {m : RMap} (h : (m.map Prod.snd).Nodup) {a₁ a₂ v : NodeId}
    (h1 : (a₁, v) ∈ m) (h2 : (a₂, v) ∈ m) : a₁ = a₂ := by
  induction m with
  | nil => cases h1
  | cons p m ih =>
    obtain ⟨p1, p2⟩ := p
    rw [List.map_cons, List.nodup_cons] at h
    rcases List.mem_cons.1 h1 with e1 | e1 <;> rcases List.mem_cons.1 h2 with e2 | e2
    · exact congrArg Prod.fst (e1.trans e2.symm)
    · injection e1 with _ ev
      refine absurd ?_ h.1
      have := List.mem_map_of_mem Prod.snd e2
      simpa [ev] using this
    · injection e2 with _ ev
      refine absurd ?_ h.1
      have := List.mem_map_of_mem Prod.snd e1
      simpa [ev] using this
    · exact ih h.2 e1 e2

theorem dupdate_nil (m : RMap) : dupdate m [] = m := rfl

theorem dupdate_cons (m : RMap) (p : NodeId × NodeId) (o : RMap) :
    dupdate m (p :: o) = dupdate (dinsert m p.1 p.2) o := rfl

theorem mem_dupdate_elim {o m : RMap} {a b : NodeId}
    (h : (a, b) ∈ dupdate m o) : (a, b) ∈ m ∨ (a, b) ∈ o := by
  induction o generalizing m with
  | nil => exact Or.inl h
  | cons p o ih =>
    rw [dupdate_cons] at h
    rcases ih h with h' | h'
    · rcases mem_dinsert_elim h' with h'' | h''
      · exact Or.inr (h'' ▸ List.mem_cons_self p o)
      · exact Or.inl h''.1
    · exact Or.inr (List.mem_cons_of_mem p h')

theorem mem_keys_dupdate_of_mem {m : RMap} (o : RMap) {a : NodeId}
    (h : a ∈ m.map Prod.fst) : a ∈ (dupdate m o).map Prod.fst := by
  induction o generalizing m with
  | nil => exact h
  | cons p o ih => exact dupdate_cons m p o ▸ ih (mem_keys_dinsert_of_mem p.1 p.2 h)

theorem nodup_keys_dupdate {m : RMap} (h : (m.map Prod.fst).Nodup) (o : RMap) :
    ((dupdate m o).map Prod.fst).Nodup := by
  induction o generalizing m with
  | nil => exact h
  | cons p o ih => exact dupdate_cons m p o ▸ ih (nodup_keys_dinsert h p.1 p.2)

/-! ### Structural lemmas about the replacement-map builder -/

theorem entryMatch_unique {h : Heap} {new : SymbolTable} {pfx : QName}
    {p : String × SymbolTableNode} {k₁ v₁ k₂ v₂ : NodeId}
    (h1 : EntryMatch h new pfx p k₁ v₁) (h2 : EntryMatch h new pfx p k₂ v₂) :
    k₁ = k₂ ∧ v₁ = v₂ := by
  obtain ⟨e₁, hl₁, hk₁, hv₁, -⟩ := h1
  obtain ⟨e₂, hl₂, hk₂, hv₂, -⟩ := h2
  rw [hl₁] at hl₂
  cases hl₂
  rw [hk₁] at hk₂
  rw [hv₁] at hv₂
  exact ⟨(Option.some.injEq _ _ ▸ hk₂ : _), (Option.some.injEq _ _ ▸ hv₂ : _)⟩

theorem builderEntry_eq_of_match {h : Heap} {new : SymbolTable} {pfx : QName}
    {p : String × SymbolTableNode} {k v : NodeId}
    (hm : EntryMatch h new pfx p k v)
    (r : SymbolTable → SymbolTable → RMap) (acc : RMap) :
    builderEntry h r new pfx acc p =
      if h.typeOf v = NodeType.TypeInfo ∧ h.typeOf k = NodeType.TypeInfo then
        dupdate (dinsert acc k v) (r (h.content v).names (h.content k).names)
      else dinsert acc k v := by
  obtain ⟨e', hl, hk', hv', hg, ht, hf, hkind⟩ := hm
  unfold builderEntry
  rw [hl]
  simp only [hg, if_true, hk', hv']
  rw [if_pos ⟨ht, hf, hkind⟩]

theorem builderEntry_eq_of_nomatch {h : Heap} {new : SymbolTable} {pfx : QName}
    {p : String × SymbolTableNode}
    (hnm : ∀ k v, ¬ EntryMatch h new pfx p k v)
    (r : SymbolTable → SymbolTable → RMap) (acc : RMap) :
    builderEntry h r new pfx acc p = acc := by
  unfold builderEntry
  cases hl : lookupST new p.1 with
  | none => rfl
  | some e' =>
    cases hg : inclusionGuard h pfx p.2 with
    | false => simp [hg]
    | true =>
      simp only [hg, if_true]
      cases hk' : e'.node with
      | none => rfl
      | some k =>
        cases hv' : p.2.node with
        | none => rfl
        | some v =>
          dsimp only
          rw [if_neg]
          rintro ⟨ht, hf, hkind⟩
          exact hnm k v ⟨e', hl, hk', hv', hg, ht, hf, hkind⟩

theorem builderEntry_mem_elim {h : Heap} {new : SymbolTable} {pfx : QName}
    {r : SymbolTable → SymbolTable → RMap} {acc : RMap}
    {p : String × SymbolTableNode} {a b : NodeId}
    (hmem : (a, b) ∈ builderEntry h r new pfx acc p) :
    (a, b) ∈ acc ∨ ∃ k v, EntryMatch h new pfx p k v ∧
      ((a, b) = (k, v) ∨ (h.typeOf v = NodeType.TypeInfo ∧ h.typeOf k = NodeType.TypeInfo ∧
        (a, b) ∈ r (h.content v).names (h.content k).names)) := by
  by_cases hex : ∃ k v, EntryMatch h new pfx p k v
  · obtain ⟨k, v, hm⟩ := hex
    rw [builderEntry_eq_of_match hm r acc] at hmem
    by_cases hti : h.typeOf v = NodeType.TypeInfo ∧ h.typeOf k = NodeType.TypeInfo
    · rw [if_pos hti] at hmem
      rcases mem_dupdate_elim hmem with h' | h'
      · rcases mem_dinsert_elim h' with h'' | h''
        · exact Or.inr ⟨k, v, hm, Or.inl h''⟩
        · exact Or.inl h''.1
      · exact Or.inr ⟨k, v, hm, Or.inr ⟨hti.1, hti.2, h'⟩⟩
    · rw [if_neg hti] at hmem
      rcases mem_dinsert_elim hmem with h'' | h''
      · exact Or.inr ⟨k, v, hm, Or.inl h''⟩
      · exact Or.inl h''.1
  · rw [builderEntry_eq_of_nomatch (fun k v hm => hex ⟨k, v, hm⟩) r acc] at hmem
    exact Or.inl hmem

theorem mem_keys_builderEntry {h : Heap} {new : SymbolTable} {pfx : QName}
    {r : SymbolTable → SymbolTable → RMap} {acc : RMap}
    {p : String × SymbolTableNode} {a : NodeId}
    (ha : a ∈ acc.map Prod.fst) :
    a ∈ (builderEntry h r new pfx acc p).map Prod.fst := by
  by_cases hex : ∃ k v, EntryMatch h new pfx p k v
  · obtain ⟨k, v, hm⟩ := hex
    rw [builderEntry_eq_of_match hm r acc]
    by_cases hti : h.typeOf v = NodeType.TypeInfo ∧ h.typeOf k = NodeType.TypeInfo
    · rw [if_pos hti]
      exact mem_keys_dupdate_of_mem _ (mem_keys_dinsert_of_mem _ _ ha)
    · rw [if_neg hti]
      exact mem_keys_dinsert_of_mem _ _ ha
  · rw [builderEntry_eq_of_nomatch (fun k v hm => hex ⟨k, v, hm⟩) r acc]
    exact ha

theorem nodup_keys_builderEntry {h : Heap} {new : SymbolTable} {pfx : QName}
    {r : SymbolTable → SymbolTable → RMap} {acc : RMap}
    {p : String × SymbolTableNode}
    (ha : (acc.map Prod.fst).Nodup) :
    ((builderEntry h r new pfx acc p).map Prod.fst).Nodup := by
  by_cases hex : ∃ k v, EntryMatch h new pfx p k v
  · obtain ⟨k, v, hm⟩ := hex
    rw [builderEntry_eq_of_match hm r acc]
    by_cases hti : h.typeOf v = NodeType.TypeInfo ∧ h.typeOf k = NodeType.TypeInfo
    · rw [if_pos hti]
      exact nodup_keys_dupdate (nodup_keys_dinsert ha k v) _
    · rw [if_neg hti]
      exact nodup_keys_dinsert ha k v
  · rw [builderEntry_eq_of_nomatch (fun k v hm => hex ⟨k, v, hm⟩) r acc]
    exact ha

theorem builder_zero (h : Heap) (old new : SymbolTable) (pfx : QName) :
    replacement_map_from_symbol_table h 0 old new pfx = [] := rfl

theorem builder_succ (h : Heap) (fuel : Nat) (old new : SymbolTable) (pfx : QName) :
    replacement_map_from_symbol_table h (fuel+1) old new pfx =
      old.foldl
        (builderEntry h
          (fun a b => replacement_map_from_symbol_table h fuel a b pfx) new pfx)
        [] := rfl

theorem foldl_builderEntry_mem_elim {h : Heap} {new : SymbolTable} {pfx : QName}
    {r : SymbolTable → SymbolTable → RMap} {l : SymbolTable} {acc : RMap} {a b : NodeId}
    (hmem : (a, b) ∈ l.foldl (builderEntry h r new pfx) acc) :
    (a, b) ∈ acc ∨ ∃ p ∈ l, ∃ k v, EntryMatch h new pfx p k v ∧
      ((a, b) = (k, v) ∨ (h.typeOf v = NodeType.TypeInfo ∧ h.typeOf k = NodeType.TypeInfo ∧
        (a, b) ∈ r (h.content v).names (h.content k).names)) := by
  induction l generalizing acc with
  | nil => exact Or.inl hmem
  | cons q l ih =>
    rw [List.foldl_cons] at hmem
    rcases ih hmem with h' | h'
    · rcases builderEntry_mem_elim h' with h'' | h''
      · exact Or.inl h''
      · obtain ⟨k, v, hm, hrest⟩ := h''
        exact Or.inr ⟨q, List.mem_cons_self q l, k, v, hm, hrest⟩
    · obtain ⟨p, hp, rest⟩ := h'
      exact Or.inr ⟨p, List.mem_cons_of_mem q hp, rest⟩

theorem builder_mem_elim {h : Heap} {fuel : Nat} {old new : SymbolTable} {pfx : QName}
    {a b : NodeId}
    (hmem : (a, b) ∈ replacement_map_from_symbol_table h (fuel+1) old new pfx) :
    ∃ p ∈ old, ∃ k v, EntryMatch h new pfx p k v ∧
      ((a, b) = (k, v) ∨ (h.typeOf v = NodeType.TypeInfo ∧ h.typeOf k = NodeType.TypeInfo ∧
        (a, b) ∈ replacement_map_from_symbol_table h fuel
          (h.content v).names (h.content k).names pfx)) := by
  rw [builder_succ] at hmem
  rcases foldl_builderEntry_mem_elim hmem with h' | h'
  · cases h'
  · exact h'

theorem nodup_keys_builder (h : Heap) (fuel : Nat) (old new : SymbolTable) (pfx : QName) :
    ((replacement_map_from_symbol_table h fuel old new pfx).map Prod.fst).Nodup := by
  cases fuel with
  | zero => exact List.nodup_nil
  | succ fuel =>
    rw [builder_succ]
    have : ∀ (l : SymbolTable) (acc : RMap), (acc.map Prod.fst).Nodup →
        ((l.foldl (builderEntry h
          (fun a b => replacement_map_from_symbol_table h fuel a b pfx) new pfx) acc).map
            Prod.fst).Nodup := by
      intro l
      induction l with
      | nil => exact fun acc ha => ha
      | cons q l ih =>
        intro acc ha
        rw [List.foldl_cons]
        exact ih _ (nodup_keys_builderEntry ha)
    exact this old [] List.nodup_nil

theorem builder_typeOf_fullname {h : Heap} {a b : NodeId} :
    ∀ {fuel : Nat} {old new : SymbolTable} {pfx : QName},
    (a, b) ∈ replacement_map_from_symbol_table h fuel old new pfx →
    h.typeOf a = h.typeOf b ∧ h.fullname a = h.fullname b := by
  intro fuel
  induction fuel with
  | zero => intro _ _ _ hmem; cases hmem
  | succ fuel ih =>
    intro old new pfx hmem
    obtain ⟨p, -, k, v, hm, hrest⟩ := builder_mem_elim hmem
    rcases hrest with he | ⟨-, -, hmem'⟩
    · cases he
      obtain ⟨e', -, -, -, -, ht, hf, -⟩ := hm
      exact ⟨ht, hf⟩
    · exact ih hmem'

/-! ### The transplant loop: closed form under separation -/

theorem selfify_self (h : Heap) (x : NodeId) : selfify h x x = h := by
  unfold selfify
  rw [if_pos rfl]

theorem runPairs_noop {h : Heap} {pairs : RMap}
    (hal : ∀ p ∈ pairs, h.dictRef p.1 = h.dictRef p.2) : runPairs h pairs = h := by
  induction pairs with
  | nil => rfl
  | cons q rest ih =>
    unfold runPairs
    rw [List.foldl_cons]
    have hq : selfify h q.2 q.1 = h := by
      unfold selfify
      rw [if_pos (hal q (List.mem_cons_self q rest)).symm]
    rw [hq]
    exact ih (fun p hp => hal p (List.mem_cons_of_mem q hp))

theorem mem_properPairs_iff {pairs : RMap} {q : NodeId × NodeId} :
    q ∈ properPairs pairs ↔ q ∈ pairs ∧ q.1 ≠ q.2 := by
  unfold properPairs
  rw [List.mem_filter]
  simp

theorem properPairs_append (l₁ l₂ : RMap) :
    properPairs (l₁ ++ l₂) = properPairs l₁ ++ properPairs l₂ :=
  List.filter_append l₁ l₂

theorem applyPairs_nil (h : Heap) : applyPairs h [] = h := by
  refine Heap.ext rfl ?_ ?_ <;> funext x <;> rfl

theorem applyPairs_typeOf (h : Heap) (pairs : RMap) :
    (applyPairs h pairs).typeOf = h.typeOf := rfl

theorem selfify_applyPairs_step (h : Heap) (hinj : Function.Injective h.dictRef)
    {pre rest : RMap} {q : NodeId × NodeId}
    (hsep : PairsSep (pre ++ q :: rest)) :
    selfify (applyPairs h pre) q.2 q.1 = applyPairs h (pre ++ [q]) := by
  obtain ⟨hk, hs, hkv⟩ := hsep
  by_cases hq : q.1 = q.2
  · have h1 : selfify (applyPairs h pre) q.2 q.1 = applyPairs h pre := by
      unfold selfify
      rw [if_pos (by rw [hq])]
    have hpp : properPairs (pre ++ [q]) = properPairs pre := by
      rw [properPairs_append]
      have : properPairs [q] = [] := by
        simp [properPairs, hq]
      rw [this, List.append_nil]
    have h2 : applyPairs h (pre ++ [q]) = applyPairs h pre := by
      unfold applyPairs
      rw [hpp]
    rw [h1, h2]
  · rw [List.map_append] at hk hs
    have hdisk := List.disjoint_of_nodup_append hk
    have hdiss := List.disjoint_of_nodup_append hs
    have hq1pre : ∀ p ∈ pre, p.1 ≠ q.1 := fun p hp hpq =>
      hdisk (List.mem_map_of_mem Prod.fst hp)
        (by rw [hpq]; exact List.mem_map_of_mem Prod.fst (List.mem_cons_self q rest))
    have hsndpre : ∀ p ∈ pre, p.2 ≠ q.2 := fun p hp hpq =>
      hdiss (List.mem_map_of_mem Prod.snd hp)
        (by rw [hpq]; exact List.mem_map_of_mem Prod.snd (List.mem_cons_self q rest))
    have hq2pre : ∀ p ∈ pre, p.1 ≠ p.2 → p.1 ≠ q.2 := by
      intro p hp hprop hpq
      exact hprop (hkv p (List.mem_append_left _ hp) q
        (List.mem_append_right _ (List.mem_cons_self q rest)) hpq).1
    have hq1snd : ∀ p ∈ pre, p.1 ≠ p.2 → p.2 ≠ q.1 := by
      intro p hp hprop hpq
      exact hq (hkv q (List.mem_append_right _ (List.mem_cons_self q rest)) p
        (List.mem_append_left _ hp) hpq.symm).1
    have f2 : (applyPairs h pre).dictRef q.1 = h.dictRef q.1 := by
      show (match (properPairs pre).find? (fun p => decide (p.1 = q.1)) with
            | some p => h.dictRef p.2
            | none => h.dictRef q.1) = h.dictRef q.1
      rw [List.find?_eq_none.2 (fun p hp hpq =>
        hq1pre p (mem_properPairs_iff.1 hp).1 (of_decide_eq_true hpq))]
    have f1 : (applyPairs h pre).dictRef q.2 = h.dictRef q.2 := by
      show (match (properPairs pre).find? (fun p => decide (p.1 = q.2)) with
            | some p => h.dictRef p.2
            | none => h.dictRef q.2) = h.dictRef q.2
      rw [List.find?_eq_none.2 (fun p hp hpq =>
        hq2pre p (mem_properPairs_iff.1 hp).1 (mem_properPairs_iff.1 hp).2
          (of_decide_eq_true hpq))]
    have f3 : (applyPairs h pre).content q.1 = h.content q.1 := by
      unfold Heap.content
      rw [f2]
      show (match (properPairs pre).find? (fun p => decide (h.dictRef p.2 = h.dictRef q.1)) with
            | some p => h.content p.1
            | none => h.dictVal (h.dictRef q.1)) = h.dictVal (h.dictRef q.1)
      rw [List.find?_eq_none.2 (fun p hp hpd =>
        hq1snd p (mem_properPairs_iff.1 hp).1 (mem_properPairs_iff.1 hp).2
          (hinj (of_decide_eq_true hpd)))]
    have hne : (applyPairs h pre).dictRef q.2 ≠ (applyPairs h pre).dictRef q.1 := by
      rw [f1, f2]
      intro hc
      exact hq (hinj hc).symm
    have hpp : properPairs (pre ++ [q]) = properPairs pre ++ [q] := by
      rw [properPairs_append]
      have : properPairs [q] = [q] := by
        simp [properPairs, hq]
      rw [this]
    unfold selfify
    rw [if_neg hne]
    refine Heap.ext rfl ?_ ?_
    · funext x
      show (if x = q.1 then (applyPairs h pre).dictRef q.2 else (applyPairs h pre).dictRef x) =
        (match (properPairs (pre ++ [q])).find? (fun p => decide (p.1 = x)) with
         | some p => h.dictRef p.2
         | none => h.dictRef x)
      rw [hpp, List.find?_append]
      by_cases hx : x = q.1
      · rw [if_pos hx, f1]
        rw [List.find?_eq_none.2 (fun p hp hpq =>
          hq1pre p (mem_properPairs_iff.1 hp).1 (hx ▸ of_decide_eq_true hpq))]
        rw [Option.none_or, List.find?_cons_of_pos _ (by rw [hx]; exact decide_eq_true rfl)]
      · rw [if_neg hx]
        rw [List.find?_cons_of_neg _ (fun hc => hx (of_decide_eq_true hc).symm)]
        rw [List.find?_nil, Option.or_none]
        rfl
    · funext d
      show (if d = (applyPairs h pre).dictRef q.2 then (applyPairs h pre).content q.1
            else (applyPairs h pre).dictVal d) =
        (match (properPairs (pre ++ [q])).find? (fun p => decide (h.dictRef p.2 = d)) with
         | some p => h.content p.1
         | none => h.dictVal d)
      rw [hpp, List.find?_append, f1, f3]
      by_cases hd : d = h.dictRef q.2
      · rw [if_pos hd]
        rw [List.find?_eq_none.2 (fun p hp hpd =>
          hsndpre p (mem_properPairs_iff.1 hp).1 (hinj ((of_decide_eq_true hpd).trans hd)))]
        rw [Option.none_or, List.find?_cons_of_pos _ (by rw [hd]; exact decide_eq_true rfl)]
      · rw [if_neg hd]
        rw [List.find?_cons_of_neg _ (fun hc => hd (of_decide_eq_true hc).symm)]
        rw [List.find?_nil, Option.or_none]
        rfl

theorem runPairs_applyPairs_aux (h : Heap) (hinj : Function.Injective h.dictRef) :
    ∀ (rest pre : RMap), PairsSep (pre ++ rest) →
      runPairs (applyPairs h pre) rest = applyPairs h (pre ++ rest) := by
  intro rest
  induction rest with
  | nil =>
    intro pre hsep
    rw [List.append_nil]
    rfl
  | cons q rest ih =>
    intro pre hsep
    have hsep' : PairsSep ((pre ++ [q]) ++ rest) := by
      rw [List.append_assoc]
      exact hsep
    calc runPairs (applyPairs h pre) (q :: rest)
        = runPairs (selfify (applyPairs h pre) q.2 q.1) rest := by
          unfold runPairs
          rw [List.foldl_cons]
      _ = runPairs (applyPairs h (pre ++ [q])) rest := by
          rw [selfify_applyPairs_step h hinj hsep]
      _ = applyPairs h ((pre ++ [q]) ++ rest) := ih (pre ++ [q]) hsep'
      _ = applyPairs h (pre ++ q :: rest) := by rw [List.append_assoc]; rfl

theorem runPairs_eq_applyPairs (h : Heap) (hinj : Function.Injective h.dictRef)
    {pairs : RMap} (hsep : PairsSep pairs) : runPairs h pairs = applyPairs h pairs := by
  have haux := runPairs_applyPairs_aux h hinj pairs []
    (by rw [List.nil_append]; exact hsep)
  rw [applyPairs_nil, List.nil_append] at haux
  exact haux

theorem applyPairs_dictRef_fst (h : Heap) {pairs : RMap}
    (hsep : PairsSep pairs) {k v : NodeId} (hm : (k, v) ∈ pairs) :
    (applyPairs h pairs).dictRef k = h.dictRef v := by
  obtain ⟨hk, hs, hkv⟩ := hsep
  by_cases hq : k = v
  · subst hq
    show (match (properPairs pairs).find? (fun p => decide (p.1 = k)) with
          | some p => h.dictRef p.2
          | none => h.dictRef k) = h.dictRef k
    rw [List.find?_eq_none.2 ?_]
    intro p hp hpk
    obtain ⟨hpmem, hpne⟩ := mem_properPairs_iff.1 hp
    have hpk' : (k, p.2) ∈ pairs := by
      rw [← of_decide_eq_true hpk]
      exact hpmem
    exact hpne ((of_decide_eq_true hpk).trans (key_unique hk hpk' hm).symm)
  · show (match (properPairs pairs).find? (fun p => decide (p.1 = k)) with
          | some p => h.dictRef p.2
          | none => h.dictRef k) = h.dictRef v
    cases hfind : (properPairs pairs).find? (fun p => decide (p.1 = k)) with
    | none =>
      exact absurd (decide_eq_true rfl)
        (List.find?_eq_none.1 hfind (k, v) (mem_properPairs_iff.2 ⟨hm, hq⟩))
    | some p' =>
      have hkey : p'.1 = k := by
        have hfs := List.find?_some hfind
        exact of_decide_eq_true hfs
      have hp'pairs := (mem_properPairs_iff.1 (List.mem_of_find?_eq_some hfind)).1
      have hmem' : (k, p'.2) ∈ pairs := by
        rw [← hkey]
        exact hp'pairs
      show h.dictRef p'.2 = h.dictRef v
      rw [key_unique hk hmem' hm]

theorem applyPairs_dictRef_snd (h : Heap) {pairs : RMap}
    (hsep : PairsSep pairs) {k v : NodeId} (hm : (k, v) ∈ pairs) :
    (applyPairs h pairs).dictRef v = h.dictRef v := by
  obtain ⟨hk, hs, hkv⟩ := hsep
  show (match (properPairs pairs).find? (fun p => decide (p.1 = v)) with
        | some p => h.dictRef p.2
        | none => h.dictRef v) = h.dictRef v
  rw [List.find?_eq_none.2 ?_]
  intro p hp hpv
  obtain ⟨hpmem, hpne⟩ := mem_properPairs_iff.1 hp
  exact hpne (hkv p hpmem (k, v) hm (of_decide_eq_true hpv)).1

theorem applyPairs_dictVal_snd (h : Heap) (hinj : Function.Injective h.dictRef)
    {pairs : RMap} (hsep : PairsSep pairs) {k v : NodeId} (hm : (k, v) ∈ pairs) :
    (applyPairs h pairs).dictVal (h.dictRef v) = h.content k := by
  obtain ⟨hk, hs, hkv⟩ := hsep
  by_cases hq : k = v
  · subst hq
    show (match (properPairs pairs).find? (fun p => decide (h.dictRef p.2 = h.dictRef k)) with
          | some p => h.content p.1
          | none => h.dictVal (h.dictRef k)) = h.content k
    rw [List.find?_eq_none.2 ?_]
    · rfl
    intro p hp hpd
    obtain ⟨hpmem, hpne⟩ := mem_properPairs_iff.1 hp
    have hsnd : p.2 = k := hinj (of_decide_eq_true hpd)
    have hmem' : (p.1, k) ∈ pairs := by
      rw [← hsnd]
      exact hpmem
    exact hpne ((snd_unique hs hmem' hm).trans hsnd.symm)
  · show (match (properPairs pairs).find? (fun p => decide (h.dictRef p.2 = h.dictRef v)) with
          | some p => h.content p.1
          | none => h.dictVal (h.dictRef v)) = h.content k
    cases hfind : (properPairs pairs).find? (fun p => decide (h.dictRef p.2 = h.dictRef v)) with
    | none =>
      exact absurd (decide_eq_true rfl)
        (List.find?_eq_none.1 hfind (k, v) (mem_properPairs_iff.2 ⟨hm, hq⟩))
    | some p' =>
      have hsnd : p'.2 = v := by
        have hfs := List.find?_some hfind
        exact hinj (of_decide_eq_true hfs)
      have hp'pairs := (mem_properPairs_iff.1 (List.mem_of_find?_eq_some hfind)).1
      have hmem' : (p'.1, v) ∈ pairs := by
        rw [← hsnd]
        exact hp'pairs
      show h.content p'.1 = h.content k
      rw [snd_unique hs hmem' hm]

theorem applyPairs_dictRef_frame (h : Heap) {pairs : RMap} {x : NodeId}
    (hx : ∀ p ∈ pairs, p.1 = x → p.1 = p.2) :
    (applyPairs h pairs).dictRef x = h.dictRef x := by
  show (match (properPairs pairs).find? (fun p => decide (p.1 = x)) with
        | some p => h.dictRef p.2
        | none => h.dictRef x) = h.dictRef x
  rw [List.find?_eq_none.2 ?_]
  intro p hp hpx
  obtain ⟨hpmem, hpne⟩ := mem_properPairs_iff.1 hp
  exact hpne (hx p hpmem (of_decide_eq_true hpx))

theorem applyPairs_dictVal_frame (h : Heap) {pairs : RMap} {d : DictId}
    (hd : ∀ p ∈ pairs, p.1 ≠ p.2 → h.dictRef p.2 ≠ d) :
    (applyPairs h pairs).dictVal d = h.dictVal d := by
  show (match (properPairs pairs).find? (fun p => decide (h.dictRef p.2 = d)) with
        | some p => h.content p.1
        | none => h.dictVal d) = h.dictVal d
  rw [List.find?_eq_none.2 ?_]
  intro p hp hpd
  obtain ⟨hpmem, hpne⟩ := mem_properPairs_iff.1 hp
  exact hd p hpmem hpne (of_decide_eq_true hpd)

/-! ### Further helper lemmas -/

theorem exists_of_mem_keys {m : RMap} {a : NodeId}
    (h : a ∈ m.map Prod.fst) : ∃ b, (a, b) ∈ m := by
  obtain ⟨p, hp, he⟩ := List.mem_map.1 h
  exact ⟨p.2, by rw [← he]; exact hp⟩

theorem lookupST_some_mem {t : SymbolTable} {n : String} {e : SymbolTableNode}
    (h : lookupST t n = some e) : (n, e) ∈ t := by
  unfold lookupST at h
  cases hfind : t.find? (fun p => p.1 = n) with
  | none => rw [hfind] at h; cases h
  | some q =>
    rw [hfind] at h
    have hq := List.mem_of_find?_eq_some hfind
    have hkey : q.1 = n := by
      have hfs := List.find?_some hfind
      exact of_decide_eq_true hfs
    have he : q.2 = e := by
      rw [Option.map_some'] at h
      exact Option.some.inj h
    rw [← hkey, ← he]
    exact hq

theorem lookupST_of_mem_nodup {t : SymbolTable} (hnd : (t.map Prod.fst).Nodup)
    {n : String} {e : SymbolTableNode} (hmem : (n, e) ∈ t) :
    lookupST t n = some e := by
  induction t with
  | nil => cases hmem
  | cons q t ih =>
    rw [List.map_cons, List.nodup_cons] at hnd
    rcases List.mem_cons.1 hmem with he | he
    · unfold lookupST
      rw [List.find?_cons_of_pos _ (by rw [← he]; exact decide_eq_true rfl)]
      rw [Option.map_some']
      rw [← he]
    · have hqn : q.1 ≠ n := by
        intro hc
        exact hnd.1 (by rw [hc]; exact List.mem_map_of_mem Prod.fst he)
      have hneg : ((fun p => decide (p.1 = n)) q) ≠ true :=
        fun hc => hqn (of_decide_eq_true hc)
      unfold lookupST
      rw [List.find?_cons_of_neg (p := fun p => decide (p.1 = n)) (a := q) t hneg]
      exact ih hnd.2 he

theorem mem_keys_dupdate_right {other : RMap} {a b : NodeId}
    (hm : (a, b) ∈ other) (m : RMap) : a ∈ (dupdate m other).map Prod.fst := by
  induction other generalizing m with
  | nil => cases hm
  | cons q rest ih =>
    rw [dupdate_cons]
    rcases List.mem_cons.1 hm with he | he
    · have ha : a = q.1 := congrArg Prod.fst he
      rw [ha]
      exact mem_keys_dupdate_of_mem rest (mem_keys_dinsert_self m q.1 q.2)
    · exact ih he _

theorem mem_keys_foldl_builderEntry {h : Heap} {new : SymbolTable} {pfx : QName}
    {r : SymbolTable → SymbolTable → RMap} {l : SymbolTable} {acc : RMap} {a : NodeId}
    (ha : a ∈ acc.map Prod.fst) :
    a ∈ (l.foldl (builderEntry h r new pfx) acc).map Prod.fst := by
  induction l generalizing acc with
  | nil => exact ha
  | cons q l ih =>
    rw [List.foldl_cons]
    exact ih (mem_keys_builderEntry ha)

theorem nodup_keys_merge_map (h : Heap) (old : NodeId) (old_symbols : SymbolTable)
    (new : NodeId) (new_symbols : SymbolTable) (fuel : Nat) :
    ((merge_replacement_map h old old_symbols new new_symbols fuel).map Prod.fst).Nodup :=
  nodup_keys_dinsert (nodup_keys_builder h fuel old_symbols new_symbols (h.fullname old)) new old

theorem builderEntry_none {h : Heap} {new : SymbolTable} {pfx : QName}
    {r : SymbolTable → SymbolTable → RMap} {acc : RMap} {p : String × SymbolTableNode}
    (hnone : p.2.node = none) : builderEntry h r new pfx acc p = acc := by
  refine builderEntry_eq_of_nomatch (fun k v hm => ?_) r acc
  obtain ⟨e', hl, hk', hv', -⟩ := hm
  rw [hnone] at hv'
  cases hv'

theorem builder_fuel_stable (h : Heap) :
    ∀ (n : Nat) (old new : SymbolTable) (pfx : QName), ClassDepthLE h n old →
    ∀ (f₁ f₂ : Nat), n < f₁ → n < f₂ →
    replacement_map_from_symbol_table h f₁ old new pfx =
      replacement_map_from_symbol_table h f₂ old new pfx := by
  intro n
  induction n with
  | zero =>
    intro old new pfx hd f₁ f₂ h₁ h₂
    obtain ⟨g₁, rfl⟩ : ∃ g, f₁ = g + 1 := ⟨f₁ - 1, by omega⟩
    obtain ⟨g₂, rfl⟩ : ∃ g, f₂ = g + 1 := ⟨f₂ - 1, by omega⟩
    rw [builder_succ, builder_succ]
    refine List.foldl_ext _ _ [] (fun acc p hp => ?_)
    simp only [ClassDepthLE] at hd
    by_cases hex : ∃ k v, EntryMatch h new pfx p k v
    · obtain ⟨k, v, hm⟩ := hex
      rw [builderEntry_eq_of_match hm _ acc, builderEntry_eq_of_match hm _ acc]
      have hv : h.typeOf v ≠ NodeType.TypeInfo := by
        obtain ⟨e', hl, hk', hv', -⟩ := hm
        exact hd p hp v hv'
      rw [if_neg (fun hti => hv hti.1), if_neg (fun hti => hv hti.1)]
    · rw [builderEntry_eq_of_nomatch (fun k v hm => hex ⟨k, v, hm⟩) _ acc,
        builderEntry_eq_of_nomatch (fun k v hm => hex ⟨k, v, hm⟩) _ acc]
  | succ n ih =>
    intro old new pfx hd f₁ f₂ h₁ h₂
    obtain ⟨g₁, rfl⟩ : ∃ g, f₁ = g + 1 := ⟨f₁ - 1, by omega⟩
    obtain ⟨g₂, rfl⟩ : ∃ g, f₂ = g + 1 := ⟨f₂ - 1, by omega⟩
    rw [builder_succ, builder_succ]
    refine List.foldl_ext _ _ [] (fun acc p hp => ?_)
    simp only [ClassDepthLE] at hd
    by_cases hex : ∃ k v, EntryMatch h new pfx p k v
    · obtain ⟨k, v, hm⟩ := hex
      rw [builderEntry_eq_of_match hm _ acc, builderEntry_eq_of_match hm _ acc]
      by_cases hti : h.typeOf v = NodeType.TypeInfo ∧ h.typeOf k = NodeType.TypeInfo
      · rw [if_pos hti, if_pos hti]
        have hvnode : p.2.node = some v := by
          obtain ⟨e', hl, hk', hv', -⟩ := hm
          exact hv'
        have hdn : ClassDepthLE h n (h.content v).names := hd p hp v hvnode hti.1
        rw [ih (h.content v).names (h.content k).names pfx hdn g₁ g₂ (by omega) (by omega)]
      · rw [if_neg hti, if_neg hti]
    · rw [builderEntry_eq_of_nomatch (fun k v hm => hex ⟨k, v, hm⟩) _ acc,
        builderEntry_eq_of_nomatch (fun k v hm => hex ⟨k, v, hm⟩) _ acc]

/-! ### Claim theorems -/

/-- C5: `merge_asts` signals its fatal error exactly when the qualified
names of the two module nodes differ; the check is the first step of the
embedded definition, and in the failing case no heap is produced, so no
state is mutated.  When the names agree, the call always succeeds. -/
theorem C5_fatal_error_iff_module_name_mismatch
    (h : Heap) (old : NodeId) (old_symbols : SymbolTable)
    (new : NodeId) (new_symbols : SymbolTable) (fuel : Nat) :
    merge_asts h old old_symbols new new_symbols fuel = none ↔
      h.fullname new ≠ h.fullname old := by
  unfold merge_asts
  by_cases hfn : h.fullname new = h.fullname old
  · rw [if_pos hfn]
    simp [hfn]
  · rw [if_neg hfn]
    simp [hfn]

/-- C9: the recursive replacement-map construction is insensitive to the
recursion bound once it exceeds the nesting depth of class-like definitions
in the old table: the builder never descends more deeply than the classes
are nested, so any fuel above the nesting depth computes the same total
map — the embedding's rendering of guaranteed termination with recursion
depth bounded by the class-nesting depth. -/
theorem C9_builder_depth_bounded_by_class_nesting
    (h : Heap) (old new : SymbolTable) (pfx : QName) (n : Nat)
    (hd : ClassDepthLE h n old) (fuel : Nat) (hf : n < fuel) :
    replacement_map_from_symbol_table h fuel old new pfx =
      replacement_map_from_symbol_table h (n + 1) old new pfx :=
  builder_fuel_stable h n old new pfx hd fuel (n + 1) hf (Nat.lt_succ_self n)

/-- Witness for C9 at a concrete input: the single-level witness tables
have class-nesting depth 0, and any larger fuel computes the same map. -/
theorem C9_witness :
    replacement_map_from_symbol_table wHeap 5 wOld wNew ["m"] =
      replacement_map_from_symbol_table wHeap 1 wOld wNew ["m"] := by
  refine C9_builder_depth_bounded_by_class_nesting wHeap wOld wNew ["m"] 0 ?_ 5 (by decide)
  intro p hp v hv
  simp only [wOld, List.mem_singleton] at hp
  subst hp
  have h2 : v = 2 := by
    injection hv with hv2
    exact hv2.symm
  subst h2
  decide

/-- C10: an old entry with an empty node reference never contributes to the
replacement map: for tables all of whose entries carry empty references the
builder returns the empty map (the guard short-circuits before the prefix
utility would be applied to the missing node, which the embedding renders
by matching on the optional reference), and consequently no pair with an
empty node on either side is ever produced — pairs only arise from entries
whose references are present on both sides. -/
theorem C10_empty_node_entries_are_skipped
    (h : Heap) (fuel : Nat) (old new : SymbolTable) (pfx : QName)
    (hnone : ∀ p ∈ old, p.2.node = none) :
    replacement_map_from_symbol_table h fuel old new pfx = [] := by
  cases fuel with
  | zero => rfl
  | succ fuel =>
    rw [builder_succ]
    have haux : ∀ (l : SymbolTable) (acc : RMap), (∀ p ∈ l, p.2.node = none) →
        l.foldl (builderEntry h
          (fun a b => replacement_map_from_symbol_table h fuel a b pfx) new pfx) acc = acc := by
      intro l
      induction l with
      | nil => exact fun acc _ => rfl
      | cons q l ih =>
        intro acc hq
        rw [List.foldl_cons, builderEntry_none (hq q (List.mem_cons_self q l))]
        exact ih acc (fun p hp => hq p (List.mem_cons_of_mem q hp))
    exact haux old [] hnone

/-- Witness for C10 at a concrete input: a table of two empty-reference
entries (one of them class-member kind) produces the empty map. -/
theorem C10_witness :
    replacement_map_from_symbol_table wHeap 3
      [("x", ⟨SymbolKind.GDEF, none⟩), ("y", ⟨SymbolKind.MDEF, none⟩)] wNew ["m"] = [] :=
  C10_empty_node_entries_are_skipped wHeap 3 _ wNew ["m"] (by decide)

/-- C1: for every pair `(newNode, oldNode)` recorded in the full replacement
map — the builder's pairs together with the explicit module pair — the merge
succeeds and afterwards (i) the old identity's observable content equals the
new node's pre-merge content, (ii) the new identity observes that very same
merged content, (iii) both identities alias one dict cell, and (iv) the old
identity still resolves to its original storage cell, so references taken
from the old graph before the merge reach the merged content by identity.
The separation hypotheses say that distinct objects own distinct dict cells
and that the map picks up each old identity at most once and never pairs an
identity with itself except degenerately. -/
theorem C1_transplant_merges_content_and_aliases_storage
    (h : Heap) (old : NodeId) (old_symbols : SymbolTable)
    (new : NodeId) (new_symbols : SymbolTable) (fuel : Nat)
    (hinj : Function.Injective h.dictRef)
    (hname : h.fullname new = h.fullname old)
    (hsnd : ((merge_replacement_map h old old_symbols new new_symbols fuel).map Prod.snd).Nodup)
    (hkv : ∀ p ∈ merge_replacement_map h old old_symbols new new_symbols fuel,
           ∀ q ∈ merge_replacement_map h old old_symbols new new_symbols fuel,
           p.1 = q.2 → p.1 = p.2 ∧ q.1 = q.2) :
    ∃ h', merge_asts h old old_symbols new new_symbols fuel = some h' ∧
      ∀ kv ∈ merge_replacement_map h old old_symbols new new_symbols fuel,
        h'.content kv.2 = h.content kv.1 ∧
        h'.content kv.1 = h.content kv.1 ∧
        h'.dictRef kv.1 = h'.dictRef kv.2 ∧
        h'.dictRef kv.2 = h.dictRef kv.2 := by
  set M := merge_replacement_map h old old_symbols new new_symbols fuel with hM
  have hsep : PairsSep M :=
    ⟨nodup_keys_merge_map h old old_symbols new new_symbols fuel, hsnd, hkv⟩
  have hrun : runPairs h M = applyPairs h M := runPairs_eq_applyPairs h hinj hsep
  refine ⟨runPairs h M, ?_, ?_⟩
  · unfold merge_asts
    rw [if_pos hname]
  · rintro ⟨k, v⟩ hkvmem
    rw [hrun]
    have h1 : (applyPairs h M).dictRef v = h.dictRef v :=
      applyPairs_dictRef_snd h hsep hkvmem
    have h2 : (applyPairs h M).dictRef k = h.dictRef v :=
      applyPairs_dictRef_fst h hsep hkvmem
    have h3 : (applyPairs h M).dictVal (h.dictRef v) = h.content k :=
      applyPairs_dictVal_snd h hinj hsep hkvmem
    refine ⟨?_, ?_, ?_, h1⟩
    · show (applyPairs h M).dictVal ((applyPairs h M).dictRef v) = h.content k
      rw [h1, h3]
    · show (applyPairs h M).dictVal ((applyPairs h M).dictRef k) = h.content k
      rw [h2, h3]
    · rw [h1, h2]

/-- Witness for C1 at a concrete input: merging the two-node witness module
transplants the function pair `(3, 2)` and the module pair `(1, 0)`. -/
theorem C1_witness :
    ∃ h', merge_asts wHeap 0 wOld 1 wNew 1 = some h' ∧
      ∀ kv ∈ merge_replacement_map wHeap 0 wOld 1 wNew 1,
        h'.content kv.2 = wHeap.content kv.1 ∧
        h'.content kv.1 = wHeap.content kv.1 ∧
        h'.dictRef kv.1 = h'.dictRef kv.2 ∧
        h'.dictRef kv.2 = wHeap.dictRef kv.2 :=
  C1_transplant_merges_content_and_aliases_storage wHeap 0 wOld 1 wNew 1
    (fun a b hab => hab) (by decide) (by decide) (by decide)

/-- C4: when a name's node has different concrete type tags in the old and
new revisions, the pair of those two nodes never enters the replacement map
(every recorded pair has identical type tags, and the explicit module pair
relates two `MypyFile` nodes); the merge still succeeds with no error; the
old identity keeps its dict cell and its content unchanged; and the new
identity keeps its own distinct cell, separate from the old identity's. -/
theorem C4_kind_change_yields_no_mapping_and_leaves_both_identities
    (h : Heap) (old : NodeId) (old_symbols : SymbolTable)
    (new : NodeId) (new_symbols : SymbolTable) (fuel : Nat)
    (name : String) (e e' : SymbolTableNode) (k v : NodeId)
    (hinj : Function.Injective h.dictRef)
    (hname : h.fullname new = h.fullname old)
    (hle : lookupST old_symbols name = some e)
    (hle' : lookupST new_symbols name = some e')
    (hv : e.node = some v) (hk : e'.node = some k)
    (htne : h.typeOf k ≠ h.typeOf v)
    (hMFo : h.typeOf old = NodeType.MypyFile)
    (hMFn : h.typeOf new = NodeType.MypyFile)
    (hsnd : ((merge_replacement_map h old old_symbols new new_symbols fuel).map Prod.snd).Nodup)
    (hkv : ∀ p ∈ merge_replacement_map h old old_symbols new new_symbols fuel,
           ∀ q ∈ merge_replacement_map h old old_symbols new new_symbols fuel,
           p.1 = q.2 → p.1 = p.2 ∧ q.1 = q.2)
    (hvkey : ∀ p ∈ merge_replacement_map h old old_symbols new new_symbols fuel, p.1 ≠ v)
    (hvsnd : ∀ p ∈ merge_replacement_map h old old_symbols new new_symbols fuel,
             p.1 ≠ p.2 → p.2 ≠ v)
    (hkkey : ∀ p ∈ merge_replacement_map h old old_symbols new new_symbols fuel, p.1 ≠ k) :
    (k, v) ∉ merge_replacement_map h old old_symbols new new_symbols fuel ∧
    (∃ h', merge_asts h old old_symbols new new_symbols fuel = some h' ∧
      h'.content v = h.content v ∧
      h'.dictRef v = h.dictRef v ∧
      h'.dictRef k = h.dictRef k ∧
      h'.dictRef k ≠ h'.dictRef v) := by
  set M := merge_replacement_map h old old_symbols new new_symbols fuel with hM
  have hsep : PairsSep M :=
    ⟨nodup_keys_merge_map h old old_symbols new new_symbols fuel, hsnd, hkv⟩
  have hrun : runPairs h M = applyPairs h M := runPairs_eq_applyPairs h hinj hsep
  have hkvne : k ≠ v := fun hc => htne (by rw [hc])
  constructor
  · intro hmem
    rcases mem_dinsert_elim hmem with he | he
    · have hkeq : k = new := congrArg Prod.fst he
      have hveq : v = old := congrArg Prod.snd he
      rw [hkeq, hveq, hMFn, hMFo] at htne
      exact htne rfl
    · exact htne (builder_typeOf_fullname he.1).1
  · refine ⟨runPairs h M, ?_, ?_, ?_, ?_, ?_⟩
    · unfold merge_asts
      rw [if_pos hname]
    · rw [hrun]
      show (applyPairs h M).dictVal ((applyPairs h M).dictRef v) = h.content v
      rw [applyPairs_dictRef_frame h (fun p hp hpv => absurd hpv (hvkey p hp))]
      rw [applyPairs_dictVal_frame h (fun p hp hprop hc => hvsnd p hp hprop (hinj hc))]
      rfl
    · rw [hrun]
      exact applyPairs_dictRef_frame h (fun p hp hpv => absurd hpv (hvkey p hp))
    · rw [hrun]
      exact applyPairs_dictRef_frame h (fun p hp hpk => absurd hpk (hkkey p hp))
    · rw [hrun]
      rw [applyPairs_dictRef_frame h (fun p hp hpk => absurd hpk (hkkey p hp))]
      rw [applyPairs_dictRef_frame h (fun p hp hpv => absurd hpv (hvkey p hp))]
      exact fun hc => hkvne (hinj hc)

/-- Witness for C4 at a concrete input: in the kind-change arena the name
`f` refers to a `FuncDef` node 2 in the old revision and a `TypeInfo` node 3
in the new one; the merge only transplants the module pair. -/
theorem C4_witness :
    ((3 : NodeId), (2 : NodeId)) ∉ merge_replacement_map w4Heap 0 w4Old 1 w4New 1 ∧
    (∃ h', merge_asts w4Heap 0 w4Old 1 w4New 1 = some h' ∧
      h'.content 2 = w4Heap.content 2 ∧
      h'.dictRef 2 = w4Heap.dictRef 2 ∧
      h'.dictRef 3 = w4Heap.dictRef 3 ∧
      h'.dictRef 3 ≠ h'.dictRef 2) :=
  C4_kind_change_yields_no_mapping_and_leaves_both_identities w4Heap 0 w4Old 1 w4New 1
    "f" ⟨SymbolKind.GDEF, some 2⟩ ⟨SymbolKind.GDEF, some 3⟩ 3 2
    (fun a b hab => hab) (by decide) (by decide) (by decide) (by decide) (by decide)
    (by decide) (by decide) (by decide) (by decide) (by decide) (by decide) (by decide)
    (by decide)

theorem mem_keys_foldl_of_entry {h : Heap} {new : SymbolTable} {pfx : QName}
    {r : SymbolTable → SymbolTable → RMap} {l : SymbolTable}
    {p : String × SymbolTableNode} (hp : p ∈ l) {a : NodeId}
    (hstep : ∀ acc : RMap, a ∈ (builderEntry h r new pfx acc p).map Prod.fst)
    (acc : RMap) :
    a ∈ (l.foldl (builderEntry h r new pfx) acc).map Prod.fst := by
  induction l generalizing acc with
  | nil => cases hp
  | cons q l ih =>
    rw [List.foldl_cons]
    rcases List.mem_cons.1 hp with he | he
    · subst he
      exact mem_keys_foldl_builderEntry (hstep acc)
    · exact ih he _

theorem builder_one_mem_matchedName {h : Heap} {old new : SymbolTable} {pfx : QName}
    (hnd : (old.map Prod.fst).Nodup) {k v : NodeId}
    (hmem : (k, v) ∈ replacement_map_from_symbol_table h 1 old new pfx) :
    ∃ name, MatchedName h old new pfx name k v := by
  obtain ⟨p, hp, k', v', hm, hrest⟩ := builder_mem_elim hmem
  rcases hrest with he | ⟨-, -, hmem'⟩
  · have hkk : k = k' := congrArg Prod.fst he
    have hvv : v = v' := congrArg Prod.snd he
    subst hkk
    subst hvv
    exact ⟨p.1, p.2, lookupST_of_mem_nodup hnd hp, hm⟩
  · rw [builder_zero] at hmem'
    cases hmem'

/-- C2: membership characterization of the top level of the builder — which
is exactly its output at recursion bound 1, where the descent into member
tables contributes nothing.  A pair `(k, v)` is recorded at the top level
iff some name is bound in both tables whose entries pass the inclusion
guard (class-member entry kind, or the old node's owning prefix equals the
module prefix) and the correspondence test (both node references present,
identical concrete type tag, identical qualified name, identical entry-kind
tag) with `v` the old node and `k` the new one; no other top-level pairs are
produced.  The hypotheses: the old table binds each name once, and two
matched names sharing one new node agree on the old node (otherwise the
later Python-dict assignment overwrites the earlier). -/
theorem C2_top_level_mapping_iff_guard_and_correspondence
    (h : Heap) (old new : SymbolTable) (pfx : QName)
    (hnd : (old.map Prod.fst).Nodup)
    (hud : ∀ n₁ n₂ k v₁ v₂, MatchedName h old new pfx n₁ k v₁ →
           MatchedName h old new pfx n₂ k v₂ → v₁ = v₂)
    (k v : NodeId) :
    (k, v) ∈ replacement_map_from_symbol_table h 1 old new pfx ↔
      ∃ name, MatchedName h old new pfx name k v := by
  constructor
  · exact builder_one_mem_matchedName hnd
  · rintro ⟨name, e, hle, hm⟩
    have hmem0 := lookupST_some_mem hle
    have hkeys : k ∈ (replacement_map_from_symbol_table h 1 old new pfx).map Prod.fst := by
      rw [builder_succ]
      refine mem_keys_foldl_of_entry hmem0 (fun acc => ?_) []
      rw [builderEntry_eq_of_match hm _ acc]
      by_cases hti : h.typeOf v = NodeType.TypeInfo ∧ h.typeOf k = NodeType.TypeInfo
      · rw [if_pos hti]
        exact mem_keys_dupdate_of_mem _ (mem_keys_dinsert_self acc k v)
      · rw [if_neg hti]
        exact mem_keys_dinsert_self acc k v
    obtain ⟨v₂, hv₂⟩ := exists_of_mem_keys hkeys
    obtain ⟨name₂, hmn₂⟩ := builder_one_mem_matchedName hnd hv₂
    rw [hud name₂ name k v₂ v hmn₂ ⟨e, hle, hm⟩] at hv₂
    exact hv₂

/-- Witness for C2 at a concrete input: in the witness module, the pair
`(3, 2)` is in the top-level map iff the name `f` matches — and it does. -/
theorem C2_witness :
    ((3 : NodeId), (2 : NodeId)) ∈ replacement_map_from_symbol_table wHeap 1 wOld wNew ["m"] ↔
      ∃ name, MatchedName wHeap wOld wNew ["m"] name 3 2 := by
  have hsingle : ∀ (n : String) (e : SymbolTableNode),
      lookupST wOld n = some e → e = ⟨SymbolKind.GDEF, some 2⟩ := by
    intro n e hle
    have hmm := lookupST_some_mem hle
    simp only [wOld, List.mem_singleton] at hmm
    exact congrArg Prod.snd hmm
  refine C2_top_level_mapping_iff_guard_and_correspondence wHeap wOld wNew ["m"]
    (by decide) ?_ 3 2
  rintro n₁ n₂ k v₁ v₂ ⟨e₁, hle₁, e₁', hlne₁, hknode₁, hvnode₁, -, -, -, -⟩
    ⟨e₂, hle₂, e₂', hlne₂, hknode₂, hvnode₂, -, -, -, -⟩
  rw [hsingle n₁ e₁ hle₁] at hvnode₁
  rw [hsingle n₂ e₂ hle₂] at hvnode₂
  have h1 : (2 : NodeId) = v₁ := Option.some.inj hvnode₁
  have h2 : (2 : NodeId) = v₂ := Option.some.inj hvnode₂
  rw [← h1, ← h2]

/-- C3: when a name's old and new entries pass the correspondence test and
the matched node is class-like (`TypeInfo`) on both sides, the builder
recurses into the two nodes' nested member tables with the unchanged module
prefix (the same `pfx` appears in the recursive call below), and the
recursive result is merged into the same output map: any member pair
produced by the recursive call is a pair of the enclosing map.  The
uniqueness hypothesis rules out another name overwriting the member's
new-side key in the enclosing Python dict. -/
theorem C3_class_members_merged_recursively_with_same_prefix
    (h : Heap) (fuel : Nat) (old new : SymbolTable) (pfx : QName)
    (name : String) (k' v' : NodeId)
    (hmn : MatchedName h old new pfx name k' v')
    (hti : h.typeOf v' = NodeType.TypeInfo) (hti' : h.typeOf k' = NodeType.TypeInfo)
    (k v : NodeId)
    (hmem : (k, v) ∈ replacement_map_from_symbol_table h fuel
      (h.content v').names (h.content k').names pfx)
    (huniq : ∀ v₂, (k, v₂) ∈ replacement_map_from_symbol_table h (fuel+1) old new pfx →
      v₂ = v) :
    (k, v) ∈ replacement_map_from_symbol_table h (fuel+1) old new pfx := by
  obtain ⟨e, hle, hm⟩ := hmn
  have hmem0 := lookupST_some_mem hle
  have hkeys : k ∈ (replacement_map_from_symbol_table h (fuel+1) old new pfx).map Prod.fst := by
    rw [builder_succ]
    refine mem_keys_foldl_of_entry hmem0 (fun acc => ?_) []
    rw [builderEntry_eq_of_match hm _ acc]
    rw [if_pos ⟨hti, hti'⟩]
    exact mem_keys_dupdate_right hmem (dinsert acc k' v')
  obtain ⟨v₂, hv₂⟩ := exists_of_mem_keys hkeys
  rw [huniq v₂ hv₂] at hv₂
  exact hv₂

/-- Witness for C3 at a concrete input: in the class arena, the member pair
`(5, 4)` produced by recursing into the matched class `m.C`'s member tables
is a pair of the enclosing module-level map. -/
theorem C3_witness :
    ((5 : NodeId), (4 : NodeId)) ∈ replacement_map_from_symbol_table w3Heap 2 w3Old w3New ["m"] := by
  refine C3_class_members_merged_recursively_with_same_prefix w3Heap 1 w3Old w3New ["m"]
    "C" 3 2 ⟨⟨SymbolKind.GDEF, some 2⟩, by decide,
      ⟨SymbolKind.GDEF, some 3⟩, by decide, rfl, rfl, by decide, by decide, by decide, rfl⟩
    (by decide) (by decide) 5 4 (by decide) ?_
  intro v₂ hv
  have hv' : ((5 : NodeId), v₂) ∈ ([(3, 2), (5, 4)] : RMap) := hv
  rcases List.mem_cons.1 hv' with hc | hc
  · exact absurd (congrArg Prod.fst hc) (show ¬(5 : NodeId) = 3 by decide)
  · rw [List.mem_singleton] at hc
    exact congrArg Prod.snd hc

theorem applyPairs_perm_eq (h : Heap) (hinj : Function.Injective h.dictRef)
    {pairs pairs' : RMap} (hperm : pairs.Perm pairs') (hsep : PairsSep pairs) :
    applyPairs h pairs = applyPairs h pairs' := by
  obtain ⟨hk, hs, hkv⟩ := hsep
  have hpp : (properPairs pairs).Perm (properPairs pairs') := hperm.filter _
  have hmem : ∀ q : NodeId × NodeId, q ∈ properPairs pairs ↔ q ∈ properPairs pairs' :=
    fun q => hpp.mem_iff
  refine Heap.ext rfl ?_ ?_
  · funext x
    show (match (properPairs pairs).find? (fun p => decide (p.1 = x)) with
          | some p => h.dictRef p.2
          | none => h.dictRef x) =
         (match (properPairs pairs').find? (fun p => decide (p.1 = x)) with
          | some p => h.dictRef p.2
          | none => h.dictRef x)
    cases hf1 : (properPairs pairs).find? (fun p => decide (p.1 = x)) with
    | none =>
      cases hf2 : (properPairs pairs').find? (fun p => decide (p.1 = x)) with
      | none => rfl
      | some q =>
        have hq2 := List.mem_of_find?_eq_some hf2
        have hnone := List.find?_eq_none.1 hf1 q ((hmem q).2 hq2)
        have hfs := List.find?_some hf2
        exact absurd hfs hnone
    | some q =>
      have hq1 := List.mem_of_find?_eq_some hf1
      cases hf2 : (properPairs pairs').find? (fun p => decide (p.1 = x)) with
      | none =>
        have hnone := List.find?_eq_none.1 hf2 q ((hmem q).1 hq1)
        have hfs := List.find?_some hf1
        exact absurd hfs hnone
      | some q' =>
        have hq'mem := List.mem_of_find?_eq_some hf2
        have hkq : q.1 = x := by
          have hfs := List.find?_some hf1
          exact of_decide_eq_true hfs
        have hkq' : q'.1 = x := by
          have hfs := List.find?_some hf2
          exact of_decide_eq_true hfs
        have hqp : q ∈ pairs := (mem_properPairs_iff.1 hq1).1
        have hq'p : q' ∈ pairs := (mem_properPairs_iff.1 ((hmem q').2 hq'mem)).1
        have hqx : (x, q.2) ∈ pairs := by
          rw [← hkq]
          exact hqp
        have hq'x : (x, q'.2) ∈ pairs := by
          rw [← hkq']
          exact hq'p
        show h.dictRef q.2 = h.dictRef q'.2
        rw [key_unique hk hqx hq'x]
  · funext d
    show (match (properPairs pairs).find? (fun p => decide (h.dictRef p.2 = d)) with
          | some p => h.content p.1
          | none => h.dictVal d) =
         (match (properPairs pairs').find? (fun p => decide (h.dictRef p.2 = d)) with
          | some p => h.content p.1
          | none => h.dictVal d)
    cases hf1 : (properPairs pairs).find? (fun p => decide (h.dictRef p.2 = d)) with
    | none =>
      cases hf2 : (properPairs pairs').find? (fun p => decide (h.dictRef p.2 = d)) with
      | none => rfl
      | some q =>
        have hq2 := List.mem_of_find?_eq_some hf2
        have hnone := List.find?_eq_none.1 hf1 q ((hmem q).2 hq2)
        have hfs := List.find?_some hf2
        exact absurd hfs hnone
    | some q =>
      have hq1 := List.mem_of_find?_eq_some hf1
      cases hf2 : (properPairs pairs').find? (fun p => decide (h.dictRef p.2 = d)) with
      | none =>
        have hnone := List.find?_eq_none.1 hf2 q ((hmem q).1 hq1)
        have hfs := List.find?_some hf1
        exact absurd hfs hnone
      | some q' =>
        have hq'mem := List.mem_of_find?_eq_some hf2
        have hdq : h.dictRef q.2 = d := by
          have hfs := List.find?_some hf1
          exact of_decide_eq_true hfs
        have hdq' : h.dictRef q'.2 = d := by
          have hfs := List.find?_some hf2
          exact of_decide_eq_true hfs
        have hsameSnd : q.2 = q'.2 := hinj (hdq.trans hdq'.symm)
        have hqp : q ∈ pairs := (mem_properPairs_iff.1 hq1).1
        have hq'p : q' ∈ pairs := (mem_properPairs_iff.1 ((hmem q').2 hq'mem)).1
        have hqx : (q.1, q.2) ∈ pairs := hqp
        have hq'x : (q'.1, q.2) ∈ pairs := by
          rw [hsameSnd]
          exact hq'p
        show h.content q.1 = h.content q'.1
        rw [snd_unique hs hqx hq'x]

/-- C8 counterexample: on the concrete arena where the old table binds two
names to one shared old node, the builder produces the pairs
`[(3, 2), (4, 2)]` — not disjoint on the old side — and running the
transplants in the two orders yields different final heaps, so the claim
that the mapped pairs may be applied in any order with the same result
fails on the code's own map. -/
theorem C8_counterexample :
    replacement_map_from_symbol_table c8Heap 1 c8Old c8New ["m"] = [(3, 2), (4, 2)] ∧
    ¬ TransplantsCommute c8Heap (replacement_map_from_symbol_table c8Heap 1 c8Old c8New ["m"]) := by
  have hmap : replacement_map_from_symbol_table c8Heap 1 c8Old c8New ["m"] = [(3, 2), (4, 2)] := by
    decide
  refine ⟨hmap, fun hc => ?_⟩
  have hperm : (replacement_map_from_symbol_table c8Heap 1 c8Old c8New ["m"]).Perm
      [(4, 2), (3, 2)] := by
    rw [hmap]
    exact List.Perm.swap (4, 2) (3, 2) []
  have heq := hc [(4, 2), (3, 2)] hperm
  rw [hmap] at heq
  have hcontent := congrArg (fun hh => Heap.content hh 2) heq
  exact absurd hcontent (by decide)

/-- C8 amended: the full replacement map is always disjoint on the new side
(Python-dict keys are unique by construction), and whenever the pairs are
additionally disjoint on the old side — each old identity transplanted at
most once, identities never on both sides except in self pairs — the
per-pair transplants commute: any reordering of the mapped pairs produces
the same final heap.  Without old-side disjointness commutation can fail
(see the counterexample). -/
theorem C8_new_side_disjoint_and_commute_under_old_side_disjointness
    (h : Heap) (old : NodeId) (old_symbols : SymbolTable)
    (new : NodeId) (new_symbols : SymbolTable) (fuel : Nat)
    (hinj : Function.Injective h.dictRef)
    (hsnd : ((merge_replacement_map h old old_symbols new new_symbols fuel).map Prod.snd).Nodup)
    (hkv : ∀ p ∈ merge_replacement_map h old old_symbols new new_symbols fuel,
           ∀ q ∈ merge_replacement_map h old old_symbols new new_symbols fuel,
           p.1 = q.2 → p.1 = p.2 ∧ q.1 = q.2) :
    ((merge_replacement_map h old old_symbols new new_symbols fuel).map Prod.fst).Nodup ∧
    TransplantsCommute h (merge_replacement_map h old old_symbols new new_symbols fuel) := by
  set M := merge_replacement_map h old old_symbols new new_symbols fuel with hM
  have hkeys := nodup_keys_merge_map h old old_symbols new new_symbols fuel
  have hsep : PairsSep M := ⟨hkeys, hsnd, hkv⟩
  refine ⟨hkeys, fun pairs' hperm => ?_⟩
  have hsep' : PairsSep pairs' := by
    refine ⟨((hperm.map Prod.fst).nodup_iff).1 hkeys,
      ((hperm.map Prod.snd).nodup_iff).1 hsnd, ?_⟩
    intro p hp q hq hpq
    exact hkv p (hperm.mem_iff.2 hp) q (hperm.mem_iff.2 hq) hpq
  rw [runPairs_eq_applyPairs h hinj hsep, runPairs_eq_applyPairs h hinj hsep']
  exact applyPairs_perm_eq h hinj hperm hsep

/-- Witness for the amended C8 at a concrete input: the witness module's
map `[(3, 2), (1, 0)]` has unique new-side keys and its transplants
commute. -/
theorem C8_witness :
    ((merge_replacement_map wHeap 0 wOld 1 wNew 1).map Prod.fst).Nodup ∧
    TransplantsCommute wHeap (merge_replacement_map wHeap 0 wOld 1 wNew 1) :=
  C8_new_side_disjoint_and_commute_under_old_side_disjointness wHeap 0 wOld 1 wNew 1
    (fun a b hab => hab) (by decide) (by decide)

theorem lookupST_map (g : SymbolTableNode → SymbolTableNode) (t : SymbolTable) (n : String) :
    lookupST (t.map (fun p => (p.1, g p.2))) n = (lookupST t n).map g := by
  induction t with
  | nil => rfl
  | cons q t ih =>
    by_cases hn : q.1 = n
    · rw [List.map_cons]
      unfold lookupST
      rw [List.find?_cons_of_pos (a := (q.1, g q.2)) _ (decide_eq_true hn),
        List.find?_cons_of_pos (a := q) _ (decide_eq_true hn)]
      rfl
    · rw [List.map_cons]
      unfold lookupST
      rw [List.find?_cons_of_neg (a := (q.1, g q.2)) _ (fun hc => hn (of_decide_eq_true hc)),
        List.find?_cons_of_neg (a := q) _ (fun hc => hn (of_decide_eq_true hc))]
      exact ih

theorem snapshotCopy_builder_pairs {h : Heap} {σ : NodeId → NodeId} :
    ∀ {fuel : Nat} {oldT newT : SymbolTable} {pfx : QName},
    SnapshotCopy h σ fuel oldT newT →
    ∀ {a b : NodeId}, (a, b) ∈ replacement_map_from_symbol_table h fuel oldT newT pfx →
    a = σ b ∧ h.typeOf (σ b) = h.typeOf b ∧
    (h.content (σ b)).fullname = (h.content b).fullname ∧
    (h.content (σ b)).body = (h.content b).body := by
  intro fuel
  induction fuel with
  | zero =>
    intro oldT newT pfx hsc a b hmem
    cases hmem
  | succ fuel ih =>
    intro oldT newT pfx hsc a b hmem
    obtain ⟨hnd, hmap, hids⟩ := hsc
    obtain ⟨p, hp, k, v, hm, hrest⟩ := builder_mem_elim hmem
    obtain ⟨e', hl, hk', hv', hg, ht, hf, hkd⟩ := hm
    have hlook : lookupST newT p.1 = some (relabelEntry σ p.2) := by
      rw [hmap, lookupST_map (relabelEntry σ) oldT p.1, lookupST_of_mem_nodup hnd hp]
      rfl
    have he' : e' = relabelEntry σ p.2 := by
      rw [hl] at hlook
      exact Option.some.inj hlook
    have hkσ : k = σ v := by
      rw [he'] at hk'
      show k = σ v
      have : p.2.node.map σ = some k := hk'
      rw [hv'] at this
      exact (Option.some.inj this).symm
    have hfacts := hids p hp v hv'
    rcases hrest with he | ⟨hti1, hti2, hmem'⟩
    · have hak : a = k := congrArg Prod.fst he
      have hbv : b = v := congrArg Prod.snd he
      subst hak
      subst hbv
      exact ⟨hkσ, hfacts.1, hfacts.2.1, hfacts.2.2.1⟩
    · have hscInner : SnapshotCopy h σ fuel (h.content v).names (h.content k).names := by
        rw [hkσ]
        exact hfacts.2.2.2 hti1
      exact ih hscInner hmem'

theorem snapshotCopy_builder_covers {h : Heap} {σ : NodeId → NodeId}
    {fuel : Nat} {oldT newT : SymbolTable} {pfx : QName}
    (hσ : Function.Injective σ)
    (hsc : SnapshotCopy h σ (fuel+1) oldT newT)
    {p : String × SymbolTableNode} (hp : p ∈ oldT) {v : NodeId}
    (hv : p.2.node = some v)
    (hg : inclusionGuard h pfx p.2 = true) :
    (σ v, v) ∈ replacement_map_from_symbol_table h (fuel+1) oldT newT pfx := by
  have hsc0 := hsc
  obtain ⟨hnd, hmap, hids⟩ := hsc
  have hfacts := hids p hp v hv
  have hlook : lookupST newT p.1 = some (relabelEntry σ p.2) := by
    rw [hmap, lookupST_map (relabelEntry σ) oldT p.1, lookupST_of_mem_nodup hnd hp]
    rfl
  have hm : EntryMatch h newT pfx p (σ v) v := by
    refine ⟨relabelEntry σ p.2, hlook, ?_, hv, hg,
      hfacts.1, ?_, rfl⟩
    · show p.2.node.map σ = some (σ v)
      rw [hv]
      rfl
    · show (h.content (σ v)).fullname = (h.content v).fullname
      exact hfacts.2.1
  have hkeys : σ v ∈ (replacement_map_from_symbol_table h (fuel+1) oldT newT pfx).map
      Prod.fst := by
    rw [builder_succ]
    refine mem_keys_foldl_of_entry hp (fun acc => ?_) []
    rw [builderEntry_eq_of_match hm _ acc]
    by_cases hti : h.typeOf v = NodeType.TypeInfo ∧ h.typeOf (σ v) = NodeType.TypeInfo
    · rw [if_pos hti]
      exact mem_keys_dupdate_of_mem _ (mem_keys_dinsert_self acc (σ v) v)
    · rw [if_neg hti]
      exact mem_keys_dinsert_self acc (σ v) v
  obtain ⟨b, hb⟩ := exists_of_mem_keys hkeys
  have hchar := snapshotCopy_builder_pairs hsc0 hb
  have hvb : v = b := hσ hchar.1
  rw [← hvb] at hb
  exact hb

/-- C6 counterexample: merging the module `m` against a structurally
identical re-analysis (same name, same entry kind, same node kind, same
qualified name, even the same body) does not produce a mapping covering
every name of the old table: the imported name `g`, whose node's owning
prefix is the module `other`, is excluded by the inclusion guard, so the
full replacement map contains only the module pair and not `(3, 2)`. -/
theorem C6_counterexample :
    c6Heap.typeOf 3 = c6Heap.typeOf 2 ∧
    c6Heap.fullname 3 = c6Heap.fullname 2 ∧
    (c6Heap.content 3).body = (c6Heap.content 2).body ∧
    c6New = c6Old.map (fun p => (p.1, relabelEntry (fun n => n + 1) p.2)) ∧
    ((3 : NodeId), (2 : NodeId)) ∉ merge_replacement_map c6Heap 0 c6Old 1 c6New 1 :=
  ⟨by decide, by decide, by decide, by decide, by decide⟩

/-- C6 amended: merging a module against an unchanged re-analysis of itself
(a `σ`-relabelled snapshot with identical structure and content) succeeds,
and (i) the replacement map covers every name of the old table that passes
the inclusion guard — class-member entry kind, or owning prefix equal to the
module — (ii) every transplanted old identity keeps its qualified name, its
body, its type tag and its storage cell, and (iii) every identity the map
does not touch keeps its content and storage cell.  Unguarded names (e.g.
imports from other modules) are exactly the ones the map need not cover. -/
theorem C6_noop_update_preserves_content_and_covers_guarded_names
    (h : Heap) (old : NodeId) (old_symbols : SymbolTable)
    (new : NodeId) (new_symbols : SymbolTable) (fuel : Nat) (σ : NodeId → NodeId)
    (hinj : Function.Injective h.dictRef)
    (hσ : Function.Injective σ)
    (hsc : SnapshotCopy h σ fuel old_symbols new_symbols)
    (hname : h.fullname new = h.fullname old)
    (hbody : (h.content new).body = (h.content old).body)
    (hMF : h.typeOf new = h.typeOf old)
    (hsnd : ((merge_replacement_map h old old_symbols new new_symbols fuel).map Prod.snd).Nodup)
    (hkv : ∀ p ∈ merge_replacement_map h old old_symbols new new_symbols fuel,
           ∀ q ∈ merge_replacement_map h old old_symbols new new_symbols fuel,
           p.1 = q.2 → p.1 = p.2 ∧ q.1 = q.2)
    (hnewfresh : ∀ q ∈ replacement_map_from_symbol_table h fuel old_symbols new_symbols
      (h.fullname old), q.1 ≠ new) :
    ∃ h', merge_asts h old old_symbols new new_symbols fuel = some h' ∧
      (∀ p ∈ old_symbols, ∀ v, p.2.node = some v →
        inclusionGuard h (h.fullname old) p.2 = true →
        (σ v, v) ∈ merge_replacement_map h old old_symbols new new_symbols fuel) ∧
      (∀ kv ∈ merge_replacement_map h old old_symbols new new_symbols fuel,
        (h'.content kv.2).fullname = (h.content kv.2).fullname ∧
        (h'.content kv.2).body = (h.content kv.2).body ∧
        h'.dictRef kv.2 = h.dictRef kv.2 ∧
        h'.typeOf kv.2 = h.typeOf kv.2) ∧
      (∀ x : NodeId,
        (∀ q ∈ merge_replacement_map h old old_symbols new new_symbols fuel, q.1 ≠ x) →
        (∀ q ∈ merge_replacement_map h old old_symbols new new_symbols fuel,
          q.1 ≠ q.2 → q.2 ≠ x) →
        h'.content x = h.content x ∧ h'.dictRef x = h.dictRef x) := by
  set M := merge_replacement_map h old old_symbols new new_symbols fuel with hM
  have hsep : PairsSep M :=
    ⟨nodup_keys_merge_map h old old_symbols new new_symbols fuel, hsnd, hkv⟩
  have hrun : runPairs h M = applyPairs h M := runPairs_eq_applyPairs h hinj hsep
  refine ⟨runPairs h M, ?_, ?_, ?_, ?_⟩
  · unfold merge_asts
    rw [if_pos hname]
  · intro p hp v hv hg
    cases fuel with
    | zero =>
      simp only [SnapshotCopy] at hsc
    | succ f =>
      have hb := snapshotCopy_builder_covers hσ hsc hp hv hg
      exact mem_dinsert_of_mem_ne hb (hnewfresh (σ v, v) hb)
  · rintro ⟨k, v⟩ hkv2
    rw [hrun]
    have h1 : (applyPairs h M).dictRef v = h.dictRef v :=
      applyPairs_dictRef_snd h hsep hkv2
    have h3 : (applyPairs h M).dictVal (h.dictRef v) = h.content k :=
      applyPairs_dictVal_snd h hinj hsep hkv2
    have hcontent : (applyPairs h M).content v = h.content k := by
      show (applyPairs h M).dictVal ((applyPairs h M).dictRef v) = h.content k
      rw [h1, h3]
    have hscal : (h.content k).fullname = (h.content v).fullname ∧
        (h.content k).body = (h.content v).body := by
      rcases mem_dinsert_elim hkv2 with he | he
      · have hkeq : k = new := congrArg Prod.fst he
        have hveq : v = old := congrArg Prod.snd he
        subst hkeq
        subst hveq
        exact ⟨hname, hbody⟩
      · have hchar := snapshotCopy_builder_pairs hsc he.1
        rw [hchar.1]
        exact ⟨hchar.2.2.1, hchar.2.2.2⟩
    rw [hcontent]
    exact ⟨hscal.1, hscal.2, h1, rfl⟩
  · intro x hx1 hx2
    rw [hrun]
    have hdr : (applyPairs h M).dictRef x = h.dictRef x :=
      applyPairs_dictRef_frame h (fun q hq hqx => absurd hqx (hx1 q hq))
    refine ⟨?_, hdr⟩
    show (applyPairs h M).dictVal ((applyPairs h M).dictRef x) = h.content x
    rw [hdr]
    rw [applyPairs_dictVal_frame h (fun q hq hqprop hc => hx2 q hq hqprop (hinj hc))]
    rfl

/-- Witness for the amended C6 at a concrete input: the no-op arena, with
the relabelling `σ = (· + 1)` sending old ids 0 and 2 to new ids 1 and 3. -/
theorem C6_witness :
    ∃ h', merge_asts w6Heap 0 wOld 1 wNew 1 = some h' ∧
      (∀ p ∈ wOld, ∀ v, p.2.node = some v →
        inclusionGuard w6Heap (w6Heap.fullname 0) p.2 = true →
        ((fun n => n + 1) v, v) ∈ merge_replacement_map w6Heap 0 wOld 1 wNew 1) ∧
      (∀ kv ∈ merge_replacement_map w6Heap 0 wOld 1 wNew 1,
        (h'.content kv.2).fullname = (w6Heap.content kv.2).fullname ∧
        (h'.content kv.2).body = (w6Heap.content kv.2).body ∧
        h'.dictRef kv.2 = w6Heap.dictRef kv.2 ∧
        h'.typeOf kv.2 = w6Heap.typeOf kv.2) ∧
      (∀ x : NodeId,
        (∀ q ∈ merge_replacement_map w6Heap 0 wOld 1 wNew 1, q.1 ≠ x) →
        (∀ q ∈ merge_replacement_map w6Heap 0 wOld 1 wNew 1, q.1 ≠ q.2 → q.2 ≠ x) →
        h'.content x = w6Heap.content x ∧ h'.dictRef x = w6Heap.dictRef x) := by
  refine C6_noop_update_preserves_content_and_covers_guarded_names w6Heap 0 wOld 1 wNew 1
    (fun n => n + 1) (fun a b hab => hab) (fun a b hab => Nat.succ.inj hab) ?_
    (by decide) (by decide) (by decide) (by decide) (by decide) (by decide)
  refine ⟨by decide, by decide, ?_⟩
  intro p hp v hv
  simp only [wOld, List.mem_singleton] at hp
  subst hp
  have h2 : (2 : NodeId) = v := Option.some.inj hv
  subst h2
  exact ⟨by decide, by decide, by decide, fun hc => absurd hc (by decide)⟩

/-! ### Idempotence of the merge -/

theorem mem_reachIds_top {h : Heap} {g : Nat} {t : SymbolTable}
    {p : String × SymbolTableNode} (hp : p ∈ t) {m : NodeId}
    (hm : p.2.node = some m) : m ∈ reachIds h (g+1) t := by
  induction t with
  | nil => cases hp
  | cons q t ih =>
    show m ∈ (match q.2.node with
      | some v =>
        (v :: if h.typeOf v = NodeType.TypeInfo
              then reachIds h g (h.content v).names else []) ++ reachIds h (g+1) t
      | none => reachIds h (g+1) t)
    rcases List.mem_cons.1 hp with he | he
    · subst he
      rw [hm]
      exact List.mem_append_left _ (List.mem_cons_self m _)
    · cases hq : q.2.node with
      | none => exact ih he
      | some v => exact List.mem_append_right _ (ih he)

theorem mem_reachIds_rec {h : Heap} {g : Nat} {t : SymbolTable}
    {p : String × SymbolTableNode} (hp : p ∈ t) {v : NodeId}
    (hv : p.2.node = some v) (hti : h.typeOf v = NodeType.TypeInfo)
    {m : NodeId} (hm : m ∈ reachIds h g (h.content v).names) :
    m ∈ reachIds h (g+1) t := by
  induction t with
  | nil => cases hp
  | cons q t ih =>
    show m ∈ (match q.2.node with
      | some w =>
        (w :: if h.typeOf w = NodeType.TypeInfo
              then reachIds h g (h.content w).names else []) ++ reachIds h (g+1) t
      | none => reachIds h (g+1) t)
    rcases List.mem_cons.1 hp with he | he
    · subst he
      rw [hv]
      show m ∈ (v :: if h.typeOf v = NodeType.TypeInfo
          then reachIds h g (h.content v).names else []) ++ reachIds h (g+1) t
      rw [if_pos hti]
      exact List.mem_append_left _ (List.mem_cons_of_mem v hm)
    · cases hq : q.2.node with
      | none => exact ih he
      | some w => exact List.mem_append_right _ (ih he)

theorem builder_self_pairs {h₂ : Heap} :
    ∀ {fuel : Nat} {t : SymbolTable} {pfx : QName}, NodupKeysRec h₂ fuel t →
    ∀ {a b : NodeId}, (a, b) ∈ replacement_map_from_symbol_table h₂ fuel t t pfx →
    a = b := by
  intro fuel
  induction fuel with
  | zero => intro t pfx hnk a b hmem; cases hmem
  | succ fuel ih =>
    intro t pfx hnk a b hmem
    obtain ⟨hnd, hrec⟩ := hnk
    obtain ⟨p, hp, k, v, hm, hrest⟩ := builder_mem_elim hmem
    obtain ⟨e', hl, hk', hv', -, -, -, -⟩ := hm
    have he' : e' = p.2 := by
      rw [lookupST_of_mem_nodup hnd hp] at hl
      exact (Option.some.inj hl).symm
    have hkv : k = v := by
      rw [he', hv'] at hk'
      exact (Option.some.inj hk').symm
    rcases hrest with he | ⟨hti1, hti2, hmem'⟩
    · have hak : a = k := congrArg Prod.fst he
      have hbv : b = v := congrArg Prod.snd he
      rw [hak, hbv, hkv]
    · rw [hkv] at hmem'
      exact ih (hrec p hp v hv' hti1) hmem'

theorem nodupKeysRec_transfer {h h₂ : Heap} (hty : h₂.typeOf = h.typeOf) :
    ∀ {fuel : Nat} {t : SymbolTable},
    (∀ m ∈ reachIds h fuel t, h₂.content m = h.content m) →
    NodupKeysRec h fuel t → NodupKeysRec h₂ fuel t := by
  intro fuel
  induction fuel with
  | zero => intro t _ _; trivial
  | succ fuel ih =>
    intro t hpres hnk
    obtain ⟨hnd, hrec⟩ := hnk
    refine ⟨hnd, ?_⟩
    intro p hp v hv hti2
    have htiv : h.typeOf v = NodeType.TypeInfo := by
      rw [hty] at hti2
      exact hti2
    have hcv : h₂.content v = h.content v := hpres v (mem_reachIds_top hp hv)
    rw [hcv]
    exact ih (fun m hm => hpres m (mem_reachIds_rec hp hv htiv hm)) (hrec p hp v hv htiv)

theorem content_preserved_of_not_proper_snd
    (h : Heap) (hinj : Function.Injective h.dictRef) {M : RMap} (hsep : PairsSep M)
    {m : NodeId} (hm : ∀ q ∈ M, q.1 ≠ q.2 → q.2 ≠ m) :
    (applyPairs h M).content m = h.content m := by
  by_cases hex : ∃ b, (m, b) ∈ M
  · obtain ⟨b, hb⟩ := hex
    show (applyPairs h M).dictVal ((applyPairs h M).dictRef m) = h.content m
    rw [applyPairs_dictRef_fst h hsep hb, applyPairs_dictVal_snd h hinj hsep hb]
  · show (applyPairs h M).dictVal ((applyPairs h M).dictRef m) = h.content m
    rw [applyPairs_dictRef_frame h
      (fun q hq hqm => absurd ⟨q.2, by rw [← hqm]; exact hq⟩ hex)]
    rw [applyPairs_dictVal_frame h (fun q hq hprop hc => hm q hq hprop (hinj hc))]
    rfl

theorem inclusionGuard_transfer {h₂ h : Heap} {pfx : QName} {e : SymbolTableNode}
    (hf : ∀ v, e.node = some v → h₂.fullname v = h.fullname v) :
    inclusionGuard h₂ pfx e = inclusionGuard h pfx e := by
  unfold inclusionGuard
  cases he : e.node with
  | none => rfl
  | some v =>
    show (decide (e.kind = SymbolKind.MDEF) ||
        decide ( get_prefix (h₂.fullname v) = pfx)) =
      (decide (e.kind = SymbolKind.MDEF) ||
        decide ( get_prefix (h.fullname v) = pfx))
    rw [hf v he]

/-- C7: the merge is idempotent.  After a successful merge, invoking the
merge a second time with the same arguments succeeds and is a no-op: the
second call returns the already-merged heap unchanged, because every pair
the second run maps — the module pair, the re-matched top-level pairs, and
the member self-pairs arising from recursing into the already-shared member
tables — has both identities aliasing one dict cell, and `selfify` returns
the heap untouched on such a pair.  In particular (second conjunct),
running the transplant loop over any pairs whose identities already alias
the same storage changes nothing.  Hypotheses: dict references are
injective, the first map is separated, top-level matches survive into the
map (no key overwritten by a different pair), and new-graph reachable nodes
are not proper old sides of the map. -/
theorem C7_merge_idempotent
    (h : Heap) (old : NodeId) (old_symbols : SymbolTable)
    (new : NodeId) (new_symbols : SymbolTable) (fuel : Nat)
    (hinj : Function.Injective h.dictRef)
    (hname : h.fullname new = h.fullname old)
    (hnkr : NodupKeysRec h fuel new_symbols)
    (hsnd : ((merge_replacement_map h old old_symbols new new_symbols fuel).map Prod.snd).Nodup)
    (hkv : ∀ p ∈ merge_replacement_map h old old_symbols new new_symbols fuel,
           ∀ q ∈ merge_replacement_map h old old_symbols new new_symbols fuel,
           p.1 = q.2 → p.1 = p.2 ∧ q.1 = q.2)
    (hsurv : ∀ p ∈ old_symbols, ∀ e', lookupST new_symbols p.1 = some e' →
       ∀ k₀ v₀, e'.node = some k₀ → p.2.node = some v₀ →
       inclusionGuard h (h.fullname old) p.2 = true →
       h.typeOf k₀ = h.typeOf v₀ → h.fullname k₀ = h.fullname v₀ → e'.kind = p.2.kind →
       (k₀, v₀) ∈ merge_replacement_map h old old_symbols new new_symbols fuel)
    (hnFresh : ∀ m ∈ reachIds h fuel new_symbols,
       ∀ q ∈ merge_replacement_map h old old_symbols new new_symbols fuel,
       q.1 ≠ q.2 → q.2 ≠ m) :
    ∀ h', merge_asts h old old_symbols new new_symbols fuel = some h' →
      merge_asts h' old old_symbols new new_symbols fuel = some h' ∧
      ∀ pairs : RMap, (∀ q ∈ pairs, h'.dictRef q.1 = h'.dictRef q.2) →
        runPairs h' pairs = h' := by
  intro h' hmerge
  set M := merge_replacement_map h old old_symbols new new_symbols fuel with hMdef
  clear_value M
  have hsep : PairsSep M := by
    rw [hMdef]
    exact ⟨nodup_keys_merge_map h old old_symbols new new_symbols fuel,
      hMdef ▸ hsnd, hMdef ▸ hkv⟩
  have hrun : runPairs h M = applyPairs h M := runPairs_eq_applyPairs h hinj hsep
  have hmergeEq : merge_asts h old old_symbols new new_symbols fuel =
      some (runPairs h M) := by
    unfold merge_asts
    rw [if_pos hname, hMdef]
  have hh' : h' = applyPairs h M := by
    rw [hmergeEq] at hmerge
    rw [← hrun]
    exact (Option.some.inj hmerge).symm
  subst hh'
  refine ⟨?_, fun pairs hal => runPairs_noop hal⟩
  have hmodM : (new, old) ∈ M := by
    rw [hMdef]
    exact mem_dinsert_self _ new old
  have hcontent_pair : ∀ k v, (k, v) ∈ M →
      (applyPairs h M).content v = h.content k := by
    intro k v hkv2
    show (applyPairs h M).dictVal ((applyPairs h M).dictRef v) = h.content k
    rw [applyPairs_dictRef_snd h hsep hkv2, applyPairs_dictVal_snd h hinj hsep hkv2]
  have hcontent_key : ∀ k v, (k, v) ∈ M →
      (applyPairs h M).content k = h.content k := by
    intro k v hkv2
    show (applyPairs h M).dictVal ((applyPairs h M).dictRef k) = h.content k
    rw [applyPairs_dictRef_fst h hsep hkv2, applyPairs_dictVal_snd h hinj hsep hkv2]
  have halias_pair : ∀ k v, (k, v) ∈ M →
      (applyPairs h M).dictRef k = (applyPairs h M).dictRef v := by
    intro k v hkv2
    rw [applyPairs_dictRef_fst h hsep hkv2, applyPairs_dictRef_snd h hsep hkv2]
  have hfn_old : (applyPairs h M).fullname old = h.fullname old := by
    show ((applyPairs h M).content old).fullname = _
    rw [hcontent_pair new old hmodM]
    exact hname
  have hfn_new : (applyPairs h M).fullname new = h.fullname new := by
    show ((applyPairs h M).content new).fullname = _
    rw [hcontent_key new old hmodM]
    rfl
  have hCP : ∀ m, (∀ q ∈ M, q.1 ≠ q.2 → q.2 ≠ m) →
      (applyPairs h M).content m = h.content m :=
    fun m hm => content_preserved_of_not_proper_snd h hinj hsep hm
  unfold merge_asts
  rw [if_pos (by rw [hfn_new, hfn_old]; exact hname)]
  refine congrArg some (runPairs_noop ?_)
  intro q hq
  have hq' : q ∈ dinsert (replacement_map_from_symbol_table (applyPairs h M) fuel
      old_symbols new_symbols ((applyPairs h M).fullname old)) new old := hq
  obtain ⟨a, b⟩ := q
  rcases mem_dinsert_elim hq' with he | ⟨hB, -⟩
  · have ha : a = new := congrArg Prod.fst he
    have hb : b = old := congrArg Prod.snd he
    rw [ha, hb]
    exact halias_pair new old hmodM
  · rw [hfn_old] at hB
    cases fuel with
    | zero => cases hB
    | succ g =>
      obtain ⟨p, hp, k₀, v₀, hm, hrest⟩ := builder_mem_elim hB
      obtain ⟨e', hl, hk₀, hv₀, hg', ht', hf', hkd'⟩ := hm
      have hk₀reach : k₀ ∈ reachIds h (g+1) new_symbols :=
        mem_reachIds_top (lookupST_some_mem hl) hk₀
      have hck₀ : (applyPairs h M).content k₀ = h.content k₀ :=
        hCP k₀ (fun q' hq2 hprop => hnFresh k₀ hk₀reach q' hq2 hprop)
      have hvfacts : (applyPairs h M).fullname v₀ = h.fullname v₀ := by
        by_cases hvM : ∃ k₁, (k₁, v₀) ∈ M
        · obtain ⟨k₁, hk₁⟩ := hvM
          have h1 : (applyPairs h M).content v₀ = h.content k₁ := hcontent_pair k₁ v₀ hk₁
          have h2 : h.fullname k₁ = h.fullname v₀ := by
            rw [hMdef] at hk₁
            rcases mem_dinsert_elim hk₁ with he2 | he2
            · have h3 : k₁ = new := congrArg Prod.fst he2
              have h4 : v₀ = old := congrArg Prod.snd he2
              rw [h3, h4]
              exact hname
            · exact (builder_typeOf_fullname he2.1).2
          show ((applyPairs h M).content v₀).fullname = _
          rw [h1]
          exact h2
        · have hvnot : ∀ q' ∈ M, q'.2 ≠ v₀ :=
            fun q' hq2 hc => hvM ⟨q'.1, by rw [← hc]; exact hq2⟩
          show ((applyPairs h M).content v₀).fullname = _
          rw [hCP v₀ (fun q' hq2 _ => hvnot q' hq2)]
          rfl
      have htrans : inclusionGuard (applyPairs h M) (h.fullname old) p.2 =
          inclusionGuard h (h.fullname old) p.2 :=
        inclusionGuard_transfer (fun w hw => by
          have hwv : w = v₀ := by
            rw [hv₀] at hw
            exact (Option.some.inj hw).symm
          rw [hwv]
          exact hvfacts)
      rw [htrans] at hg'
      have hfk₀ : (applyPairs h M).fullname k₀ = h.fullname k₀ :=
        congrArg NodeDict.fullname hck₀
      have hfh : h.fullname k₀ = h.fullname v₀ := by
        rw [← hfk₀, ← hvfacts]
        exact hf'
      have hth : h.typeOf k₀ = h.typeOf v₀ := ht'
      have hkvM : (k₀, v₀) ∈ M := hsurv p hp e' hl k₀ v₀ hk₀ hv₀ hg' hth hfh hkd'
      have halias : (applyPairs h M).dictRef k₀ = (applyPairs h M).dictRef v₀ :=
        halias_pair k₀ v₀ hkvM
      rcases hrest with he2 | ⟨hti1, hti2, hmem'⟩
      · have ha : a = k₀ := congrArg Prod.fst he2
        have hb : b = v₀ := congrArg Prod.snd he2
        rw [ha, hb]
        exact halias
      · have hTv : (applyPairs h M).content v₀ = h.content k₀ := hcontent_pair k₀ v₀ hkvM
        rw [hTv, hck₀] at hmem'
        have hti2h : h.typeOf k₀ = NodeType.TypeInfo := hti2
        have hnkr_inner : NodupKeysRec h g (h.content k₀).names := by
          obtain ⟨hnd2, hrec2⟩ := hnkr
          exact hrec2 (p.1, e') (lookupST_some_mem hl) k₀ hk₀ hti2h
        have hnkr_inner2 : NodupKeysRec (applyPairs h M) g (h.content k₀).names := by
          refine nodupKeysRec_transfer (applyPairs_typeOf h M) (fun m hm2 => ?_) hnkr_inner
          refine hCP m (fun q' hq2 hprop => hnFresh m ?_ q' hq2 hprop)
          exact mem_reachIds_rec (lookupST_some_mem hl) hk₀ hti2h hm2
        have hab : a = b := builder_self_pairs hnkr_inner2 hmem'
        rw [hab]

/-- Witness for C7 at a concrete input: merging the witness module yields a
heap on which a second merge with the same arguments is a no-op. -/
theorem C7_witness :
    merge_asts (runPairs wHeap (merge_replacement_map wHeap 0 wOld 1 wNew 1)) 0 wOld 1 wNew 1 =
      some (runPairs wHeap (merge_replacement_map wHeap 0 wOld 1 wNew 1)) := by
  have hfirst : merge_asts wHeap 0 wOld 1 wNew 1 =
      some (runPairs wHeap (merge_replacement_map wHeap 0 wOld 1 wNew 1)) := by
    unfold merge_asts
    rw [if_pos (show wHeap.fullname 1 = wHeap.fullname 0 by decide)]
  refine (C7_merge_idempotent wHeap 0 wOld 1 wNew 1 (fun a b hab => hab) (by decide)
    ⟨by decide, fun p hp v hv hti => trivial⟩ (by decide) (by decide) ?_ (by decide)
    _ hfirst).1
  intro p hp e' hl k₀ v₀ hk hv hg ht hf hkd
  simp only [wOld, List.mem_singleton] at hp
  subst hp
  have he' : (⟨SymbolKind.GDEF, some 3⟩ : SymbolTableNode) = e' := Option.some.inj hl
  subst he'
  have hk3 : (3 : NodeId) = k₀ := Option.some.inj hk
  have hv2 : (2 : NodeId) = v₀ := Option.some.inj hv
  subst hk3
  subst hv2
  decide

end Astmerge
